import Mathlib

/-!
Verification of `lib/python/cellranger/io.py` (cellranger utility module).

The development shallowly embeds the two pieces of logic of the module that
carry a specification — the HDF5 string codec (`create_hdf5_string_dataset` /
`read_hdf5_string_dataset`) and the single-level JSON merger
(`merge_jsons_single_level`) — together with the thin filesystem helpers
(`run_command_safely`, `copytree`, `makedirs`) the remaining claims touch.

Conventions of the embedding:
* Python byte strings and unicode strings are sequences of codepoints,
  `List Nat`.  Machine-level issues (narrow unicode builds) are not modelled;
  a Python unicode character is a codepoint `< 0x110000`.
* Stateful effects (dataset creation under an HDF5 group, subprocess
  execution, filesystem mutation) are modelled by explicit result values and
  explicit state records.
* Fallible code returns `Except` / a dedicated result inductive.
-/

/-! ## Python values appearing as elements of a string dataset

`create_hdf5_string_dataset` receives a Python list whose elements are
expected to be `None` or strings; anything else trips the `assert`.
`pyOther tag` stands for an arbitrary non-`None`, non-string Python object
(the `tag` distinguishes different such objects). -/

inductive PyElem where
  | pyNone : PyElem
  | pyStr (s : List Nat) : PyElem
  | pyOther (tag : Nat) : PyElem
deriving DecidableEq, Repr

/-- The check performed by the `assert` on line 277:
`x is None or isinstance(x, six.string_types)`. -/
def isNoneOrStr : PyElem → Bool
  | .pyNone => true
  | .pyStr _ => true
  | .pyOther _ => false

/-! ## The stored dataset

An HDF5 fixed-width string dataset, as produced by `group.create_dataset`.
`rows = none` models the empty dataset created with `dtype='S1'` and no data
(h5py gives it a `None` shape, which is what `read_hdf5_string_dataset`
tests); `rows = some rs` models a dataset of `rs.length` fixed-width entries,
each padded with NUL bytes to `width` (the `S<width>` dtype).  Reading an
entry back through numpy strips the trailing NUL padding, which is modelled
in `read_hdf5_string_dataset` below. -/

structure StrDataset where
  width : Nat
  rows : Option (List (List Nat))
deriving DecidableEq, Repr

/-- Result of `create_hdf5_string_dataset`.  The group side effect is
modelled by the returned value: `ok d` means the dataset `d` was created
under the group, `invalidInput` means the `assert` fired (an
`AssertionError` escaped) and no dataset was created. -/
inductive EncodeResult where
  | ok (d : StrDataset) : EncodeResult
  | invalidInput : EncodeResult
deriving DecidableEq, Repr

/-! ## Encoding (`create_hdf5_string_dataset`) -/

/-- Helper for `decDigits`: digits of `n`, most significant first, by
repeated division (structural on a fuel that any `fuel ≥ n` satisfies). -/
def decDigitsAux : Nat → Nat → List Nat
  | 0, _ => []
  | fuel + 1, n => if n = 0 then [] else decDigitsAux fuel (n / 10) ++ [n % 10 + 48]

/-- Decimal digit characters of `n`, most significant first, as Python's
`str(n)` / `'%d' % n` renders a nonnegative integer. -/
def decDigits (n : Nat) : List Nat :=
  if n = 0 then [48] else decDigitsAux n n

/-- One character under Python's `encode('ascii', 'xmlcharrefreplace')`:
7-bit characters pass through; anything else becomes the numeric XML
character reference `&#N;`. -/
def encodeChar (c : Nat) : List Nat :=
  if c < 128 then [c] else [38, 35] ++ decDigits c ++ [59]

/-- `s.encode('ascii', 'xmlcharrefreplace')` on a unicode string `s`. -/
def encodeStr (s : List Nat) : List Nat :=
  (s.map encodeChar).flatten

/-- The lambda on line 281: `x.encode('ascii', 'xmlcharrefreplace') if x is
not None else ''`.  The `pyOther` case is unreachable: the preceding
`assert` has already rejected such elements. -/
def encodeElem : PyElem → List Nat
  | .pyNone => []
  | .pyStr s => encodeStr s
  | .pyOther _ => []

/-- `max(len(x) for x in data)` (over a nonempty `data`; the `0` seed is
only reached for the empty list, which the caller has already excluded). -/
def listMaxLen (l : List (List Nat)) : Nat :=
  l.foldl (fun a s => Nat.max a s.length) 0

/-- numpy's conversion of a byte string into a fixed-width `S w` cell:
pad on the right with NUL bytes. -/
def padTo (w : Nat) (s : List Nat) : List Nat :=
  s ++ List.replicate (w - s.length) 0

/-- `create_hdf5_string_dataset(group, name, data)` (io.py lines 257-290).
`data = none` is Python `None`; otherwise the Python list of elements.
Mirrors the source: empty input gives an empty `S1` dataset; the `assert`
rejects non-`None`, non-string elements; otherwise elements are encoded with
`xmlcharrefreplace`, the fixed width is the maximal encoded length (minimum
1), and the encoded entries are stored padded to that width. -/
def create_hdf5_string_dataset (data : Option (List PyElem)) : EncodeResult :=
  match data with
  | none => .ok ⟨1, none⟩
  | some [] => .ok ⟨1, none⟩
  | some l =>
    if l.all isNoneOrStr then
      let enc := l.map encodeElem
      let fixed_len := listMaxLen enc
      let w := if fixed_len = 0 then 1 else fixed_len
      .ok ⟨w, some (enc.map (padTo w))⟩
    else .invalidInput

/-! ## Decoding (`read_hdf5_string_dataset`)

The decode path is `dataset[:]` (numpy strips trailing NULs), then
`.decode('ascii', 'ignore')` (drop non-7-bit bytes), then Python 2's
`HTMLParser.unescape` (reverse XML character references), then `make_utf8`.

`HTMLParser.unescape` substitutes, left to right, every match of the regex
`&(#?[xX]?(?:[0-9a-fA-F]+|\w{1,8}));` through `replaceEntities`: numeric
references (decimal `&#N;`, hex `&#xN;`) become the referenced character
when the codepoint is representable (`unichr` accepts codepoints up to
0x10FFFF), named references are looked up in the entity table, and anything
unrecognized is reproduced verbatim.  The functions below embed that
behaviour; the backtracking of the regex engine collapses to the
deterministic run-length analysis implemented in `tryAlt` (a shorter-than-
maximal greedy run is always followed by another run character, never by the
required `;`). -/

def isDigitB (c : Nat) : Bool := 48 ≤ c && c ≤ 57

def isHexDigitB (c : Nat) : Bool :=
  isDigitB c || (97 ≤ c && c ≤ 102) || (65 ≤ c && c ≤ 70)

/-- `\w` for a Python 2 pattern without `re.UNICODE`: `[a-zA-Z0-9_]`. -/
def isWordB (c : Nat) : Bool :=
  isDigitB c || (97 ≤ c && c ≤ 122) || (65 ≤ c && c ≤ 90) || c == 95

/-- Length of the maximal prefix of `l` whose characters satisfy `p`. -/
def runLen (p : Nat → Bool) : List Nat → Nat
  | [] => 0
  | c :: r => if p c then runLen p r + 1 else 0

/-- The body alternation `(?:[0-9a-fA-F]+|\w{1,8})` followed by `;`:
returns the number of body characters when a match exists.  Greedy matching
with backtracking admits only the maximal run of each class (any shorter
attempt is followed by a character of the same class, not `;`), and the
`\w{1,8}` branch admits runs of length at most 8. -/
def tryAlt (m : List Nat) : Option Nat :=
  let k := runLen isHexDigitB m
  if 1 ≤ k ∧ m[k]? = some 59 then some k
  else
    let r := runLen isWordB m
    if 1 ≤ r ∧ r ≤ 8 ∧ m[r]? = some 59 then some r else none

/-- Matching of `#?[xX]?(?:...);` after the optional `#` has been handled:
the optional `x`/`X` is tried consumed first, then unconsumed, following the
regex engine's backtracking order.  Returns the matched group (without the
leading `&` and trailing `;`) and the remaining input. -/
def matchNoHash (l : List Nat) : Option (List Nat × List Nat) :=
  match l with
  | [] => none
  | x :: l2 =>
    if x = 120 ∨ x = 88 then
      match tryAlt l2 with
      | some k => some (x :: l2.take k, l2.drop (k + 1))
      | none =>
        match tryAlt l with
        | some k => some (l.take k, l.drop (k + 1))
        | none => none
    else
      match tryAlt l with
      | some k => some (l.take k, l.drop (k + 1))
      | none => none

/-- Full match of the entity regex at a position just past a `&`.
If the next character is `#` it can only be consumed by the optional `#?`
(`#` is neither a hex nor a word character, so no match exists without
consuming it). -/
def matchEntity (l : List Nat) : Option (List Nat × List Nat) :=
  match l with
  | x :: l1 =>
    if x = 35 then (matchNoHash l1).map (fun g => (35 :: g.1, g.2))
    else matchNoHash l
  | [] => none

/-- Decimal value of a digit string, `int(s)`; `none` is the `ValueError`. -/
def decVal? (ds : List Nat) : Option Nat :=
  if ds ≠ [] ∧ ds.all isDigitB then
    some (ds.foldl (fun a d => a * 10 + (d - 48)) 0)
  else none

def hexDigitVal (c : Nat) : Nat :=
  if c ≤ 57 then c - 48 else if c ≤ 70 then c - 55 else c - 87

/-- Hexadecimal value of a digit string, `int(s, 16)`. -/
def hexVal? (ds : List Nat) : Option Nat :=
  if ds ≠ [] ∧ ds.all isHexDigitB then
    some (ds.foldl (fun a d => a * 16 + hexDigitVal d) 0)
  else none

/-- The named-entity table consulted by `replaceEntities`.  Only the
entities relevant to round-tripping ASCII text are listed (`amp`, `lt`,
`gt`, `quot` from `htmlentitydefs`, plus `apos` which `HTMLParser` adds);
the remaining HTML 4 names all map to characters outside 7-bit ASCII and
are never produced nor consumed by the codec claims.  An unknown name falls
through to the verbatim branch of `replaceEntities`, exactly as the
`KeyError` handler does. -/
def entityName? (s : List Nat) : Option (List Nat) :=
  if s = [97, 109, 112] then some [38]
  else if s = [108, 116] then some [60]
  else if s = [103, 116] then some [62]
  else if s = [113, 117, 111, 116] then some [34]
  else if s = [97, 112, 111, 115] then some [39]
  else none

/-- `replaceEntities` from `HTMLParser.unescape`, applied to the matched
group `g`: numeric references are converted with `unichr` (codepoints above
0x10FFFF raise `ValueError`, reproducing the reference verbatim), named
references are looked up, and failures reproduce `&` + group + `;`. -/
def replaceEntities (g : List Nat) : List Nat :=
  match g with
  | 35 :: s =>
    (match s with
     | x :: t =>
       if x = 120 ∨ x = 88 then
         match hexVal? t with
         | some c => if c < 1114112 then [c] else [38, 35] ++ s ++ [59]
         | none => [38, 35] ++ s ++ [59]
       else
         match decVal? s with
         | some c => if c < 1114112 then [c] else [38, 35] ++ s ++ [59]
         | none => [38, 35] ++ s ++ [59]
     | [] => [38, 35, 59])
  | s =>
    match entityName? s with
    | some r => r
    | none => [38] ++ s ++ [59]

/-- Left-to-right substitution pass of `re.sub`, fuelled for structural
termination (a fuel of the input length always suffices: every step
consumes at least one character). -/
def scanF : Nat → List Nat → List Nat
  | 0, l => l
  | _ + 1, [] => []
  | fuel + 1, c :: rest =>
    if c = 38 then
      match matchEntity rest with
      | some g => replaceEntities g.1 ++ scanF fuel g.2
      | none => 38 :: scanF fuel rest
    else c :: scanF fuel rest

/-- `HTMLParser.unescape` (Python 2): the `'&' not in s` fast path returns
the input unchanged, otherwise the regex substitution runs. -/
def unescape (s : List Nat) : List Nat :=
  if 38 ∈ s then scanF s.length s else s

/-- numpy's read of one fixed-width `S` cell: trailing NUL padding is
stripped. -/
def rstripNul (l : List Nat) : List Nat :=
  (l.reverse.dropWhile (fun c => c == 0)).reverse

/-- `.decode('ascii', 'ignore')`: bytes outside 7-bit ASCII are dropped. -/
def asciiIgnore (l : List Nat) : List Nat :=
  l.filter (fun c => c < 128)

/-- `make_utf8` (io.py lines 292-301) on the branch exercised here: its
argument is already a unicode string (the result of `.decode`), which is
returned unchanged. -/
def make_utf8 (s : List Nat) : List Nat := s

/-- `read_hdf5_string_dataset(dataset)` (io.py lines 303-323). -/
def read_hdf5_string_dataset (d : StrDataset) : List (List Nat) :=
  match d.rows with
  | none => []
  | some rows => rows.map (fun r => make_utf8 (unescape (asciiIgnore (rstripNul r))))

/-- Decode-after-encode pipeline: `none` when the encode fails. -/
def roundTrip (data : Option (List PyElem)) : Option (List (List Nat)) :=
  match create_hdf5_string_dataset data with
  | .ok d => some (read_hdf5_string_dataset d)
  | .invalidInput => none

/-! ## JSON values (`merge_jsons_single_level`)

JSON values as delivered by `json.load`: the top level of each input file is
an object (a Python dict).  Objects and arrays are mutual inductives so that
all functions below are structural.  An object is an association list of
(key, value) pairs; a dict produced by `json.load` has no duplicate keys,
which the theorems carry as a well-formedness hypothesis.  JSON numbers are
modelled as integers: the merge logic only inspects values through equality
and through the `type(...) == dict` test, and the claims exercise integer
values only (Python float/int cross-type equality is out of scope). -/

mutual
inductive JVal where
  | null : JVal
  | bool (b : Bool) : JVal
  | num (n : Int) : JVal
  | str (s : List Nat) : JVal
  | arr (l : JList) : JVal
  | obj (o : JObj) : JVal
deriving DecidableEq
inductive JList where
  | nil : JList
  | cons (v : JVal) (t : JList) : JList
deriving DecidableEq
inductive JObj where
  | nil : JObj
  | cons (k : List Nat) (v : JVal) (t : JObj) : JObj
deriving DecidableEq
end

/-- Dictionary lookup `d[k]` / `k in d` (first matching entry). -/
def lookupO (k : List Nat) : JObj → Option JVal
  | .nil => none
  | .cons k1 v t => if k1 = k then some v else lookupO k t

/-- Every key of the first object occurs in the second. -/
def keysSubB : JObj → JObj → Bool
  | .nil, _ => true
  | .cons k _ t, b => (lookupO k b).isSome && keysSubB t b

/- Python `==` on JSON values: structural on scalars and lists, extensional
on dicts (same key set, equal values — `jeqO a b` checks every entry of `a`
against `b`, `keysSubB b a` checks there is no extra key in `b`). -/
mutual
def jeq : JVal → JVal → Bool
  | .null, .null => true
  | .bool a, .bool b => a == b
  | .num a, .num b => a == b
  | .str a, .str b => a == b
  | .arr a, .arr b => jeqL a b
  | .obj a, .obj b => jeqO a b && keysSubB b a
  | _, _ => false
def jeqL : JList → JList → Bool
  | .nil, .nil => true
  | .cons x xs, .cons y ys => jeq x y && jeqL xs ys
  | _, _ => false
def jeqO : JObj → JObj → Bool
  | .nil, _ => true
  | .cons k v t, b =>
    (match lookupO k b with
     | some w => jeq v w
     | none => false) && jeqO t b
end

/-- The Python 2 type of a JSON value (what `type(value)` prints). -/
inductive JType where
  | tNone : JType
  | tBool : JType
  | tInt : JType
  | tStr : JType
  | tList : JType
  | tDict : JType
deriving DecidableEq

def jtype : JVal → JType
  | .null => .tNone
  | .bool _ => .tBool
  | .num _ => .tInt
  | .str _ => .tStr
  | .arr _ => .tList
  | .obj _ => .tDict

/-- `type(value) == dict`. -/
def isObjB : JVal → Bool
  | .obj _ => true
  | _ => false

/-- The `ValueError` raised on line 251.  The Python message is
`"No merge strategy for key %s, value of type %s, from %s into %s"
% (key, type(value), value, merged[key])`; the structure carries the four
interpolated pieces: the key, the conflicting value's type, the conflicting
value and the prior value already in the merge. -/
structure MergeConflict where
  key : List Nat
  valueType : JType
  value : JVal
  prior : JVal
deriving DecidableEq

/-- Python dict assignment `d[k] = v`: overwrite in place, or append. -/
def setKeyO (o : JObj) (k : List Nat) (v : JVal) : JObj :=
  match o with
  | .nil => .cons k v .nil
  | .cons k1 v1 t => if k1 = k then .cons k1 v t else .cons k1 v1 (setKeyO t k v)

/-- Python `old.update(new)`: assign every entry of `new` into `old`. -/
def updateO (old new : JObj) : JObj :=
  match new with
  | .nil => old
  | .cons k v t => updateO (setKeyO old k v) t

/-- The body of the `for key, value in d.iteritems()` loop
(io.py lines 240-254) for one `(key, value)` pair. -/
def mergeEntry (merged : JObj) (k : List Nat) (v : JVal) : Except MergeConflict JObj :=
  match lookupO k merged with
  | none => .ok (setKeyO merged k v)
  | some old =>
    if jeq old v then .ok merged
    else
      match v, old with
      | .obj b, .obj a => .ok (setKeyO merged k (.obj (updateO a b)))
      | _, _ => .error ⟨k, jtype v, v, old⟩

/-- All entries of one file's top-level object, in iteration order. -/
def mergeEntries (merged : JObj) (d : JObj) : Except MergeConflict JObj :=
  match d with
  | .nil => .ok merged
  | .cons k v t =>
    match mergeEntry merged k v with
    | .ok m1 => mergeEntries m1 t
    | .error e => .error e

def mergeFiles (merged : JObj) (files : List JObj) : Except MergeConflict JObj :=
  match files with
  | [] => .ok merged
  | d :: rest =>
    match mergeEntries merged d with
    | .ok m1 => mergeFiles m1 rest
    | .error e => .error e

/-- `merge_jsons_single_level(filenames)` (io.py lines 228-255), taking the
already-parsed top-level object of each file (the file reading and
`json.load` steps are outside the merge logic). -/
def merge_jsons_single_level (files : List JObj) : Except MergeConflict JObj :=
  mergeFiles .nil files

/-- Keys of an object in order. -/
def keysO : JObj → List (List Nat)
  | .nil => []
  | .cons k _ t => k :: keysO t

/-- No duplicate keys at this level. -/
def nodupKeysB : JObj → Bool
  | .nil => true
  | .cons k _ t => !(lookupO k t).isSome && nodupKeysB t

/- Well-formed JSON value: no object at any depth has duplicate keys.
Every value produced by `json.load` satisfies this. -/
mutual
def wfV : JVal → Bool
  | .arr l => wfL l
  | .obj o => nodupKeysB o && wfO o
  | _ => true
def wfL : JList → Bool
  | .nil => true
  | .cons v t => wfV v && wfL t
def wfO : JObj → Bool
  | .nil => true
  | .cons _ v t => wfV v && wfO t
end

/-! ## `run_command_safely`

`run_command_safely(cmd, args)` (io.py lines 92-96) starts the subprocess
with `stderr=subprocess.PIPE`, waits for it, and on a nonzero exit status
raises `Exception("%s returned error code %d: %s" % (p, p.returncode,
stderr_data))`.  The subprocess outcome (exit status and captured stderr)
is an input of the model; the raised exception is the `.error` value
carrying the formatted message as a byte string. -/

structure ProcResult where
  returncode : Int
  stderr : List Nat
deriving DecidableEq

/-- `str(p)` where `p` is the `Popen` object: the `%s` on line 96 formats
the *object*, whose Python 2 repr is `<subprocess.Popen object at 0x...>`.
The hexadecimal address is elided: it is runtime-dependent noise, and no
part of it depends on the command (hex digits cannot even spell `p`).
ASCII for `<subprocess.Popen object>`. -/
def popen_str : List Nat :=
  [60, 115, 117, 98, 112, 114, 111, 99, 101, 115, 115, 46, 80, 111, 112, 101, 110,
   32, 111, 98, 106, 101, 99, 116, 62]

/-- ASCII for `" returned error code "`. -/
def txt_returned : List Nat :=
  [32, 114, 101, 116, 117, 114, 110, 101, 100, 32, 101, 114, 114, 111, 114, 32,
   99, 111, 100, 101, 32]

/-- ASCII for `": "`. -/
def txt_colon : List Nat := [58, 32]

/-- `'%d' % i` for a Python integer. -/
def intRepr (i : Int) : List Nat :=
  if i < 0 then 45 :: decDigits i.natAbs else decDigits i.natAbs

/-- `run_command_safely(cmd, args)` given the subprocess outcome `proc`.
Note the message is built from `popen_str`, never from `cmd` or `args`. -/
def run_command_safely (_cmd : List Nat) (_args : List (List Nat)) (proc : ProcResult) :
    Except (List Nat) Unit :=
  if proc.returncode ≠ 0 then
    .error (popen_str ++ txt_returned ++ intRepr proc.returncode ++ txt_colon ++ proc.stderr)
  else .ok ()

/-! ## `copytree` and the filesystem helpers it uses

The destination-side filesystem is a set of directory paths plus a set of
files (paths are component lists).  The source side of `copytree` is the
directory tree being copied: `os.listdir(src)` paired with each child's
subtree, `os.path.isdir` being the constructor test. -/

abbrev FileName := List Nat
abbrev FPath := List FileName

inductive FSTree where
  | file (content : List Nat) : FSTree
  | dir (entries : List (FileName × FSTree)) : FSTree

structure FS where
  dirs : List FPath
  files : List (FPath × List Nat)

/-- The only errno the modelled operations raise (`errno.EEXIST`). -/
inductive OSErrno where
  | eexist : OSErrno
deriving DecidableEq

def fsExists (fs : FS) (p : FPath) : Bool :=
  fs.dirs.contains p || fs.files.any (fun q => q.1 = p)

def fsIsDir (fs : FS) (p : FPath) : Bool := fs.dirs.contains p

/-- `os.makedirs(p)`: create the leaf and any missing ancestors; an existing
leaf (directory or file) raises `OSError(EEXIST)`.  (A file standing in
place of an intermediate directory is outside the modelled scenarios.) -/
def os_makedirs (fs : FS) (p : FPath) : Except OSErrno FS :=
  if fsExists fs p then .error .eexist
  else .ok ⟨fs.dirs ++ (List.range (p.length + 1)).map (fun i => p.take i), fs.files⟩

/-- `makedirs(dst, allow_existing)` (io.py lines 121-133): the `EEXIST`
error is swallowed exactly when `allow_existing` is set and the path is an
existing directory. -/
def makedirs (fs : FS) (p : FPath) (allow_existing : Bool) : Except OSErrno FS :=
  match os_makedirs fs p with
  | .ok fs1 => .ok fs1
  | .error e =>
    if allow_existing = true ∧ e = .eexist ∧ fsIsDir fs p = true then .ok fs
    else .error e

/-- `cp srcname dstname` for a plain file: creates or overwrites the
destination file (the claims only exercise this successful path). -/
def fsWriteFile (fs : FS) (p : FPath) (content : List Nat) : FS :=
  ⟨fs.dirs, (p, content) :: fs.files⟩

/- `copytree(src, dst, allow_existing)` (io.py lines 157-168), with the
listing of `src` as the `entries` argument.  `copytreeEntries` is the
`for name in os.listdir(src)` loop; note the recursive call on a
subdirectory is `copytree(srcname, dstname)` — the source omits
`allow_existing`, so the nested call runs with the default `False`. -/
mutual
def copytree (entries : List (FileName × FSTree)) (fs : FS) (dst : FPath)
    (allow_existing : Bool) : Except OSErrno FS :=
  match makedirs fs dst allow_existing with
  | .error e => .error e
  | .ok fs1 => copytreeEntries entries fs1 dst
termination_by (sizeOf entries, 1)
def copytreeEntries (entries : List (FileName × FSTree)) (fs : FS) (dst : FPath) :
    Except OSErrno FS :=
  match entries with
  | [] => .ok fs
  | (n, .dir es) :: rest =>
    match copytree es fs (dst ++ [n]) false with
    | .ok fs1 => copytreeEntries rest fs1 dst
    | .error e => .error e
  | (n, .file content) :: rest =>
    copytreeEntries rest (fsWriteFile fs (dst ++ [n]) content) dst
termination_by (sizeOf entries, 0)
end

/-! ## Order-independence apparatus for the merge (C2)

The amended C2 compares merge results as mappings (`optJeq` pointwise on
lookups, values compared with Python `==`) under a compatibility hypothesis
on the input files: any two values of one top-level key are `==`-equal or
are both dicts agreeing on shared nested keys.  `mergeVal` is the per-key
effect of one loop iteration on an already-present key, read off lines
246-249 of the source (the conflict branch raises instead of producing a
value; the `v` fallback below is unreachable in every context where
`mergeVal` is applied). -/

def optJeq : Option JVal → Option JVal → Prop
  | none, none => True
  | some v, some w => jeq v w = true
  | _, _ => False

def compatVal (v w : JVal) : Prop :=
  jeq v w = true ∨ ∃ a b, v = .obj a ∧ w = .obj b ∧
    ∀ s x y, lookupO s a = some x → lookupO s b = some y → jeq x y = true

def mergeVal (old v : JVal) : JVal :=
  if jeq old v then old
  else
    match v, old with
    | .obj b, .obj a => .obj (updateO a b)
    | _, _ => v

def foldVals : List JVal → Option JVal
  | [] => none
  | v :: t => some (t.foldl mergeVal v)

/-- The values a key receives across a file list, in processing order. -/
def keyVals (k : List Nat) (files : List JObj) : List JVal :=
  files.filterMap (lookupO k)

def foldFrom (o : Option JVal) (l : List JVal) : Option JVal :=
  match o with
  | some old => some (l.foldl mergeVal old)
  | none => foldVals l

def objLook (s : List Nat) : JVal → Option JVal
  | .obj a => lookupO s a
  | _ => none

/-- The value of nested key `s` contributed by the latest occurrence. -/
def revLook (s : List Nat) (vs : List JVal) : Option JVal :=
  (vs.reverse.filterMap (objLook s)).head?

/-! ## Basic lemmas about the codec -/

theorem encodeStr_ascii (s : List Nat) (h : ∀ c ∈ s, c < 128) : encodeStr s = s := by
  induction s with
  | nil => rfl
  | cons c t ih =>
    have hc : c < 128 := h c (by simp)
    simp only [encodeStr, List.map_cons, List.flatten_cons, encodeChar, if_pos hc]
    have ih' := ih (fun x hx => h x (by simp [hx]))
    rw [encodeStr] at ih'
    rw [List.singleton_append, ih']

theorem dropWhile_zero_replicate_append (n : Nat) (t : List Nat) :
    List.dropWhile (fun c => c == 0) (List.replicate n 0 ++ t) =
      List.dropWhile (fun c => c == 0) t := by
  induction n with
  | zero => simp
  | succ n ih =>
    rw [List.replicate_succ, List.cons_append, List.dropWhile_cons_of_pos (by simp)]
    exact ih

theorem rstripNul_pad (s : List Nat) (n : Nat) (h : 0 ∉ s) :
    rstripNul (s ++ List.replicate n 0) = s := by
  unfold rstripNul
  rw [List.reverse_append, List.reverse_replicate, dropWhile_zero_replicate_append]
  cases hs : s.reverse with
  | nil =>
    have : s = [] := by simpa using congrArg List.reverse hs
    simp [this]
  | cons a t =>
    have ha : a ∈ s := by
      have : a ∈ s.reverse := by simp [hs]
      simpa using this
    have ha0 : (a == 0) = false := by
      simp only [beq_eq_false_iff_ne, ne_eq]
      intro hcontra; exact h (hcontra ▸ ha)
    rw [List.dropWhile_cons_of_neg (by simp [ha0]), ← hs, List.reverse_reverse]

theorem asciiIgnore_ascii (s : List Nat) (h : ∀ c ∈ s, c < 128) : asciiIgnore s = s := by
  unfold asciiIgnore
  rw [List.filter_eq_self]
  intro a ha
  simpa using h a ha

theorem unescape_no_amp (s : List Nat) (h : 38 ∉ s) : unescape s = s := by
  simp [unescape, h]

theorem listMaxLen_seed_le (l : List (List Nat)) (a : Nat) :
    a ≤ l.foldl (fun a s => Nat.max a s.length) a := by
  induction l generalizing a with
  | nil => exact Nat.le_refl a
  | cons s t ih =>
    exact Nat.le_trans (Nat.le_max_left a s.length) (by simpa using ih (Nat.max a s.length))

theorem listMaxLen_ge (l : List (List Nat)) (s : List Nat) (hs : s ∈ l) :
    s.length ≤ listMaxLen l := by
  unfold listMaxLen
  generalize 0 = a
  induction l generalizing a with
  | nil => cases hs
  | cons h t ih =>
    rcases List.mem_cons.mp hs with rfl | hmem
    · exact Nat.le_trans (Nat.le_max_right a s.length) (listMaxLen_seed_le t _)
    · exact ih hmem _

theorem padTo_length (w : Nat) (s : List Nat) (h : s.length ≤ w) :
    (padTo w s).length = w := by
  simp [padTo]
  omega

theorem if_zero_one_eq_max (m : Nat) : (if m = 0 then 1 else m) = Nat.max m 1 := by
  by_cases h : m = 0
  · simp [h]
  · rw [if_neg h]
    exact (Nat.max_eq_left (Nat.one_le_iff_ne_zero.mpr h)).symm

/-- Computation of `create_hdf5_string_dataset` on a nonempty list that
passes the `assert`. -/
theorem create_eq_ok (l : List PyElem) (hne : l ≠ []) (hall : l.all isNoneOrStr = true)
    (w : Nat)
    (hw : w = if listMaxLen (l.map encodeElem) = 0 then 1 else listMaxLen (l.map encodeElem)) :
    create_hdf5_string_dataset (some l) =
      .ok ⟨w, some ((l.map encodeElem).map (padTo w))⟩ := by
  subst hw
  cases l with
  | nil => exact absurd rfl hne
  | cons a as =>
    simp only [create_hdf5_string_dataset]
    rw [if_pos hall]

/-- Decoding a single stored cell holding plain ASCII text without `&` and
without NUL recovers the text, whatever the cell width. -/
theorem decode_row_ascii (s : List Nat) (w : Nat)
    (h : ∀ c ∈ s, c < 128 ∧ c ≠ 38 ∧ c ≠ 0) :
    make_utf8 (unescape (asciiIgnore (rstripNul (padTo w s)))) = s := by
  have h0 : 0 ∉ s := fun hmem => (h 0 hmem).2.2 rfl
  have h38 : 38 ∉ s := fun hmem => (h 38 hmem).2.1 rfl
  rw [padTo, rstripNul_pad s _ h0, asciiIgnore_ascii s (fun c hc => (h c hc).1),
    unescape_no_amp s h38]
  rfl

/-- **C1 (counterexample).**  Two inputs whose content is entirely 7-bit
ASCII fail to round-trip: the text `"&#65;"` (a literal numeric character
reference) decodes to `"A"`, and the text `"a\x00"` loses its trailing NUL
to the fixed-width padding strip.  This falsifies the claim that
`decode(encode(x)) == x` for every sequence of 7-bit-ASCII text values. -/
theorem string_roundtrip_ascii_cex :
    (∀ c ∈ [38, 35, 54, 53, 59], c < 128) ∧
      roundTrip (some [.pyStr [38, 35, 54, 53, 59]]) = some [[65]] ∧
      roundTrip (some [.pyStr [38, 35, 54, 53, 59]]) ≠ some [[38, 35, 54, 53, 59]] ∧
      (∀ c ∈ [97, 0], c < 128) ∧
      roundTrip (some [.pyStr [97, 0]]) ≠ some [[97, 0]] := by
  refine ⟨by decide, by decide, by decide, by decide, by decide⟩

/-- **C1 (amended).**  For every sequence of text values whose content is
7-bit ASCII and contains neither `&` (codepoint 38, which would feed the
HTML unescaping pass of the decoder) nor NUL (codepoint 0, which the
fixed-width storage strips from the right), decoding the dataset produced
by encoding the sequence returns it unchanged. -/
theorem string_roundtrip_ascii_amended (l : List (List Nat))
    (h : ∀ s ∈ l, ∀ c ∈ s, c < 128 ∧ c ≠ 38 ∧ c ≠ 0) :
    roundTrip (some (l.map PyElem.pyStr)) = some l := by
  cases l with
  | nil => rfl
  | cons s0 ls =>
    have hall : ((s0 :: ls).map PyElem.pyStr).all isNoneOrStr = true := by
      rw [List.all_eq_true]
      intro x hx
      rcases List.mem_map.mp hx with ⟨s, _, rfl⟩
      rfl
    rw [roundTrip,
      create_eq_ok ((s0 :: ls).map PyElem.pyStr) (by simp) hall _ rfl]
    simp only [read_hdf5_string_dataset, Option.some.injEq]
    rw [List.map_map, List.map_map, List.map_map]
    refine Eq.trans (List.map_congr_left ?_) (List.map_id _)
    intro s hs
    have hasc : ∀ c ∈ s, c < 128 := fun c hc => (h s hs c hc).1
    have he : encodeElem (PyElem.pyStr s) = s := encodeStr_ascii s hasc
    simp only [Function.comp_apply, id_eq, he]
    exact decode_row_ascii s _ (h s hs)

/-- Witness for C1 (amended): round trip of `["hi", "ok"]`. -/
theorem string_roundtrip_ascii_amended_witness :
    (∀ s ∈ [[104, 105], [111, 107]], ∀ c ∈ s, c < 128 ∧ c ≠ 38 ∧ c ≠ 0) ∧
      roundTrip (some ([[104, 105], [111, 107]].map PyElem.pyStr)) =
        some [[104, 105], [111, 107]] :=
  ⟨by decide, string_roundtrip_ascii_amended [[104, 105], [111, 107]] (by decide)⟩

/-- **C6.**  A nonempty input list containing an element that is neither
absent (`None`) nor text makes `create_hdf5_string_dataset` fail the
`assert` (an `InvalidInputType` error) and no dataset is created: the
result carries no dataset value. -/
theorem encode_invalid_input (l : List PyElem) (hne : l ≠ [])
    (h : ∃ x ∈ l, isNoneOrStr x = false) :
    create_hdf5_string_dataset (some l) = .invalidInput := by
  cases l with
  | nil => exact absurd rfl hne
  | cons a as =>
    have hall : ((a :: as).all isNoneOrStr) = false := by
      rcases h with ⟨x, hx, hfx⟩
      rw [← Bool.not_eq_true, List.all_eq_true]
      intro hc
      exact absurd (hc x hx) (by simp [hfx])
    simp [create_hdf5_string_dataset, hall]

/-- Witness for C6: a list holding a non-string, non-`None` object. -/
theorem encode_invalid_input_witness :
    ([PyElem.pyOther 0] ≠ []) ∧
      create_hdf5_string_dataset (some [PyElem.pyOther 0]) = .invalidInput :=
  ⟨by decide, encode_invalid_input [PyElem.pyOther 0] (by decide)
    ⟨PyElem.pyOther 0, by decide, rfl⟩⟩

/-- **C7.**  Encoding `None` and encoding the empty list both produce the
zero-element dataset of byte-string width 1 (the `dtype='S1'`, shape-`None`
dataset), and decoding that dataset returns the empty sequence. -/
theorem encode_empty_dataset :
    create_hdf5_string_dataset none = .ok ⟨1, none⟩ ∧
      create_hdf5_string_dataset (some []) = .ok ⟨1, none⟩ ∧
      read_hdf5_string_dataset ⟨1, none⟩ = [] :=
  ⟨rfl, rfl, rfl⟩

/-- **C8.**  On a nonempty list of text-or-absent elements,
`create_hdf5_string_dataset` encodes each element (absent becomes empty
text, characters outside 7-bit ASCII become numeric XML character
references — this is `encodeElem`), stores all elements padded to one fixed
width, and that width is the maximum encoded byte length, with a minimum of
1 when the maximum is 0. -/
theorem encode_fixed_width (l : List PyElem) (hne : l ≠ [])
    (hall : l.all isNoneOrStr = true) :
    ∃ d, create_hdf5_string_dataset (some l) = .ok d ∧
      d.width = Nat.max (listMaxLen (l.map encodeElem)) 1 ∧
      d.rows = some ((l.map encodeElem).map (padTo d.width)) ∧
      (∀ r ∈ (l.map encodeElem).map (padTo d.width), r.length = d.width) ∧
      encodeElem .pyNone = [] := by
  refine ⟨⟨if listMaxLen (l.map encodeElem) = 0 then 1 else listMaxLen (l.map encodeElem),
          some ((l.map encodeElem).map
            (padTo (if listMaxLen (l.map encodeElem) = 0 then 1
                    else listMaxLen (l.map encodeElem))))⟩,
    create_eq_ok l hne hall _ rfl, if_zero_one_eq_max _, rfl, ?_, rfl⟩
  intro r hr
  rcases List.mem_map.mp hr with ⟨e, he, rfl⟩
  apply padTo_length
  have h1 := listMaxLen_ge (l.map encodeElem) e he
  by_cases h0 : listMaxLen (l.map encodeElem) = 0 <;> simp [h0] <;> omega

/-- Witness for C8: encoding `[None, "a"]`. -/
theorem encode_fixed_width_witness :
    ([PyElem.pyNone, PyElem.pyStr [97]] ≠ []) ∧
      ([PyElem.pyNone, PyElem.pyStr [97]].all isNoneOrStr = true) ∧
      ∃ d, create_hdf5_string_dataset (some [PyElem.pyNone, PyElem.pyStr [97]]) = .ok d ∧
        d.width = Nat.max (listMaxLen ([PyElem.pyNone, PyElem.pyStr [97]].map encodeElem)) 1 ∧
        d.rows = some (([PyElem.pyNone, PyElem.pyStr [97]].map encodeElem).map (padTo d.width)) ∧
        (∀ r ∈ ([PyElem.pyNone, PyElem.pyStr [97]].map encodeElem).map (padTo d.width),
          r.length = d.width) ∧
        encodeElem .pyNone = [] :=
  ⟨by decide, by decide,
    encode_fixed_width [PyElem.pyNone, PyElem.pyStr [97]] (by decide) (by decide)⟩

/-! ## Lemmas about the decimal rendering used by `xmlcharrefreplace` -/

theorem decDigitsAux_eq (fuel n : Nat) (h : n ≤ fuel) :
    decDigitsAux fuel n = (Nat.digits 10 n).reverse.map (fun d => d + 48) := by
  induction fuel generalizing n with
  | zero =>
    have hn : n = 0 := by omega
    subst hn
    simp [decDigitsAux]
  | succ fuel ih =>
    by_cases hn : n = 0
    · subst hn
      simp [decDigitsAux]
    · rw [decDigitsAux, if_neg hn,
        Nat.digits_def' (by norm_num : 1 < 10) (Nat.pos_of_ne_zero hn),
        List.reverse_cons, List.map_append]
      have hdiv : n / 10 ≤ fuel := by
        have := Nat.div_lt_self (Nat.pos_of_ne_zero hn) (by norm_num : 1 < 10)
        omega
      rw [ih (n / 10) hdiv]
      simp

theorem decDigits_eq_digits (n : Nat) (hn : n ≠ 0) :
    decDigits n = (Nat.digits 10 n).reverse.map (fun d => d + 48) := by
  rw [decDigits, if_neg hn]
  exact decDigitsAux_eq n n (Nat.le_refl n)

theorem decDigits_all_digit (n : Nat) : ∀ d ∈ decDigits n, isDigitB d = true := by
  intro d hd
  by_cases h : n = 0
  · rw [decDigits, if_pos h, List.mem_singleton] at hd
    subst hd
    decide
  · rw [decDigits_eq_digits n h] at hd
    rcases List.mem_map.mp hd with ⟨e, he, rfl⟩
    have he' : e ∈ Nat.digits 10 n := List.mem_reverse.mp he
    have hlt : e < 10 := Nat.digits_lt_base (by norm_num) he'
    simp only [isDigitB, Bool.and_eq_true, decide_eq_true_eq]
    omega

theorem decDigits_ne_nil (n : Nat) : decDigits n ≠ [] := by
  by_cases h : n = 0
  · rw [decDigits, if_pos h]
    simp
  · rw [decDigits_eq_digits n h]
    simp [Nat.digits_ne_nil_iff_ne_zero.mpr h]

theorem foldl_reverse_ofDigits (L : List Nat) (a : Nat) :
    L.reverse.foldl (fun x d => x * 10 + d) a = a * 10 ^ L.length + Nat.ofDigits 10 L := by
  induction L generalizing a with
  | nil => simp [Nat.ofDigits_nil]
  | cons d T ih =>
    rw [List.reverse_cons, List.foldl_append, ih]
    simp only [List.foldl_cons, List.foldl_nil, Nat.ofDigits_cons, List.length_cons,
      pow_succ, Nat.cast_id]
    ring

theorem decDigits_fold (n : Nat) :
    (decDigits n).foldl (fun a d => a * 10 + (d - 48)) 0 = n := by
  by_cases h : n = 0
  · rw [decDigits, if_pos h]
    simp [h]
  · rw [decDigits_eq_digits n h, List.foldl_map]
    have hfun : (fun (a d : Nat) => a * 10 + (d + 48 - 48)) = fun a d => a * 10 + d := by
      funext a d
      simp
    rw [hfun, foldl_reverse_ofDigits, Nat.ofDigits_digits]
    simp

theorem decVal_decDigits (n : Nat) : decVal? (decDigits n) = some n := by
  unfold decVal?
  rw [if_pos ⟨decDigits_ne_nil n, List.all_eq_true.mpr (decDigits_all_digit n)⟩,
    decDigits_fold]

/-! ## Lemmas about the entity matcher -/

theorem digit_is_hex {a : Nat} (h : isDigitB a = true) : isHexDigitB a = true := by
  simp [isHexDigitB, h]

theorem hex_ne_38 {a : Nat} (h : isHexDigitB a = true) : a ≠ 38 := by
  intro heq
  subst heq
  exact absurd h (by decide)

theorem word_ne_38 {a : Nat} (h : isWordB a = true) : a ≠ 38 := by
  intro heq
  subst heq
  exact absurd h (by decide)

theorem runLen_append (p : Nat → Bool) (a : List Nat) (b : Nat) (t : List Nat)
    (ha : ∀ x ∈ a, p x = true) (hb : p b = false) :
    runLen p (a ++ b :: t) = a.length := by
  induction a with
  | nil => simp [runLen, hb]
  | cons x xs ih =>
    have hx := ha x (by simp)
    simp only [List.cons_append, runLen, hx, if_true, List.length_cons, List.append_eq]
    rw [ih (fun y hy => ha y (by simp [hy]))]

theorem mem_take_runLen (p : Nat → Bool) (l : List Nat) :
    ∀ a ∈ l.take (runLen p l), p a = true := by
  induction l with
  | nil => simp
  | cons c r ih =>
    intro a ha
    unfold runLen at ha
    by_cases hc : p c
    · rw [if_pos hc, List.take_succ_cons] at ha
      rcases List.mem_cons.mp ha with rfl | hmem
      · exact hc
      · exact ih a hmem
    · rw [if_neg hc] at ha
      simp at ha

theorem tryAlt_semicolon (m : List Nat) (k : Nat) (h : tryAlt m = some k) :
    m[k]? = some 59 ∧ 1 ≤ k := by
  simp only [tryAlt] at h
  split_ifs at h with h1 h2
  · cases h
    exact ⟨h1.2, h1.1⟩
  · cases h
    exact ⟨h2.2.2, h2.1⟩

theorem tryAlt_group_chars (m : List Nat) (k : Nat) (h : tryAlt m = some k) :
    ∀ a ∈ m.take k, a ≠ 38 := by
  simp only [tryAlt] at h
  split_ifs at h with h1 h2
  · cases h
    intro a ha
    exact hex_ne_38 (mem_take_runLen isHexDigitB m a ha)
  · cases h
    intro a ha
    exact word_ne_38 (mem_take_runLen isWordB m a ha)

theorem split_of_getElem_semicolon (m : List Nat) (k : Nat) (h : m[k]? = some 59) :
    m = m.take k ++ 59 :: m.drop (k + 1) := by
  have hk : k < m.length := by
    by_contra hcon
    rw [List.getElem?_eq_none (by omega)] at h
    cases h
  have hval : m[k] = 59 := by
    rw [List.getElem?_eq_getElem hk] at h
    exact Option.some.inj h
  conv_lhs => rw [← List.take_append_drop k m]
  rw [List.drop_eq_getElem_cons hk, hval]

theorem matchPlain_spec (m : List Nat) (k : Nat) (h : tryAlt m = some k) :
    m = m.take k ++ 59 :: m.drop (k + 1) ∧ ∀ a ∈ m.take k, a ≠ 38 :=
  ⟨split_of_getElem_semicolon m k (tryAlt_semicolon m k h).1, tryAlt_group_chars m k h⟩

theorem matchNoHash_spec (l g r : List Nat) (h : matchNoHash l = some (g, r)) :
    l = g ++ 59 :: r ∧ ∀ a ∈ g, a ≠ 38 := by
  cases l with
  | nil => simp [matchNoHash] at h
  | cons x l2 =>
    simp only [matchNoHash] at h
    by_cases hx : x = 120 ∨ x = 88
    · rw [if_pos hx] at h
      cases htry : tryAlt l2 with
      | some k =>
        rw [htry] at h
        obtain ⟨hsplit, hchars⟩ := matchPlain_spec l2 k htry
        cases h
        constructor
        · rw [List.cons_append]
          exact congrArg (x :: ·) hsplit
        · intro a ha
          rcases List.mem_cons.mp ha with rfl | hmem
          · rcases hx with rfl | rfl <;> decide
          · exact hchars a hmem
      | none =>
        rw [htry] at h
        cases htry2 : tryAlt (x :: l2) with
        | some k =>
          rw [htry2] at h
          obtain ⟨hsplit, hchars⟩ := matchPlain_spec (x :: l2) k htry2
          cases h
          exact ⟨hsplit, hchars⟩
        | none =>
          rw [htry2] at h
          cases h
    · rw [if_neg hx] at h
      cases htry2 : tryAlt (x :: l2) with
      | some k =>
        rw [htry2] at h
        obtain ⟨hsplit, hchars⟩ := matchPlain_spec (x :: l2) k htry2
        cases h
        exact ⟨hsplit, hchars⟩
      | none =>
        rw [htry2] at h
        cases h

theorem matchEntity_spec (l g r : List Nat) (h : matchEntity l = some (g, r)) :
    l = g ++ 59 :: r ∧ ∀ a ∈ g, a ≠ 38 := by
  cases l with
  | nil => simp [matchEntity] at h
  | cons x l1 =>
    simp only [matchEntity] at h
    by_cases hx : x = 35
    · rw [if_pos hx] at h
      cases hm : matchNoHash l1 with
      | none =>
        rw [hm] at h
        cases h
      | some gr =>
        rw [hm] at h
        obtain ⟨g1, r1⟩ := gr
        obtain ⟨hsplit, hchars⟩ := matchNoHash_spec l1 g1 r1 hm
        cases h
        subst hx
        refine ⟨by rw [List.cons_append]; exact congrArg (35 :: ·) hsplit, ?_⟩
        intro a ha
        rcases List.mem_cons.mp ha with rfl | hmem
        · decide
        · exact hchars a hmem
    · rw [if_neg hx] at h
      exact matchNoHash_spec _ g r h

/-! ## The matcher on an encoder-produced numeric reference -/

theorem matchNoHash_ref (ds q : List Nat) (hne : ds ≠ [])
    (hds : ∀ d ∈ ds, isDigitB d = true) :
    matchNoHash (ds ++ 59 :: q) = some (ds, q) := by
  have htry : tryAlt (ds ++ 59 :: q) = some ds.length := by
    simp only [tryAlt]
    have hrun : runLen isHexDigitB (ds ++ 59 :: q) = ds.length :=
      runLen_append _ _ _ _ (fun x hx => digit_is_hex (hds x hx)) (by decide)
    rw [hrun]
    have hlen : 1 ≤ ds.length := by
      cases ds with
      | nil => exact absurd rfl hne
      | cons d t => simp
    have hsemi : (ds ++ 59 :: q)[ds.length]? = some 59 := by
      rw [List.getElem?_append_right (Nat.le_refl _)]
      simp
    rw [if_pos ⟨hlen, hsemi⟩]
  have htake : (ds ++ 59 :: q).take ds.length = ds := List.take_left ds (59 :: q)
  have hdrop : (ds ++ 59 :: q).drop (ds.length + 1) = q := by
    rw [show ds ++ 59 :: q = (ds ++ [59]) ++ q by simp]
    exact List.drop_left' (by simp)
  cases ds with
  | nil => exact absurd rfl hne
  | cons d t =>
    have hd : isDigitB d = true := hds d (by simp)
    have hd' : ¬(d = 120 ∨ d = 88) := by
      rintro (rfl | rfl) <;> exact absurd hd (by decide)
    rw [List.cons_append]
    simp only [matchNoHash]
    rw [if_neg hd']
    rw [← List.cons_append]
    rw [htry]
    simp only [htake, hdrop]

theorem matchEntity_ref (c : Nat) (q : List Nat) :
    matchEntity (35 :: (decDigits c ++ 59 :: q)) = some (35 :: decDigits c, q) := by
  simp only [matchEntity, if_true]
  rw [matchNoHash_ref _ _ (decDigits_ne_nil c) (decDigits_all_digit c)]
  rfl

theorem replaceEntities_ref (c : Nat) (hc : c < 1114112) :
    replaceEntities (35 :: decDigits c) = [c] := by
  cases hds : decDigits c with
  | nil => exact absurd hds (decDigits_ne_nil c)
  | cons d t =>
    have hd : isDigitB d = true := by
      have := decDigits_all_digit c d
      rw [hds] at this
      exact this (by simp)
    have hd' : ¬(d = 120 ∨ d = 88) := by
      rintro (rfl | rfl) <;> exact absurd hd (by decide)
    simp only [replaceEntities]
    rw [if_neg hd', ← hds, decVal_decDigits]
    simp [hc]

/-! ## Reduction steps of the scanner -/

theorem scanF_amp_match (fuel : Nat) (rest g r : List Nat)
    (h : matchEntity rest = some (g, r)) :
    scanF (fuel + 1) (38 :: rest) = replaceEntities g ++ scanF fuel r := by
  simp [scanF, h]

theorem scanF_amp_nomatch (fuel : Nat) (rest : List Nat) (h : matchEntity rest = none) :
    scanF (fuel + 1) (38 :: rest) = 38 :: scanF fuel rest := by
  simp [scanF, h]

theorem scanF_cons_ne (fuel : Nat) (c : Nat) (rest : List Nat) (h : ¬c = 38) :
    scanF (fuel + 1) (c :: rest) = c :: scanF fuel rest := by
  simp [scanF, h]

/-! ## The scanner restores an escaped character -/

theorem scanF_restores (c : Nat) (hc : c < 1114112) :
    ∀ fuel p q l, l = p ++ 38 :: 35 :: (decDigits c ++ 59 :: q) → l.length ≤ fuel →
      c ∈ scanF fuel l := by
  intro fuel
  induction fuel with
  | zero =>
    intro p q l hl hlen
    subst hl
    simp at hlen
  | succ fuel ih =>
    intro p q l hl hlen
    subst hl
    cases p with
    | nil =>
      rw [List.nil_append,
        scanF_amp_match fuel _ _ _ (matchEntity_ref c q),
        replaceEntities_ref c hc]
      simp
    | cons ph pt =>
      have hlen' : (pt ++ 38 :: 35 :: (decDigits c ++ 59 :: q)).length ≤ fuel := by
        rw [List.cons_append] at hlen
        simp only [List.length_cons] at hlen
        omega
      rw [List.cons_append]
      by_cases hph : ph = 38
      · subst hph
        cases hme : matchEntity (pt ++ 38 :: 35 :: (decDigits c ++ 59 :: q)) with
        | none =>
          rw [scanF_amp_nomatch fuel _ hme]
          exact List.mem_cons_of_mem _ (ih pt q _ rfl hlen')
        | some gr =>
          obtain ⟨g, r⟩ := gr
          rw [scanF_amp_match fuel _ _ _ hme]
          obtain ⟨hsplit, hchars⟩ := matchEntity_spec _ _ _ hme
          have hglen : g.length + 1 ≤ pt.length := by
            by_contra hcon
            push_neg at hcon
            have h38 : (pt ++ 38 :: 35 :: (decDigits c ++ 59 :: q))[pt.length]? = some 38 := by
              rw [List.getElem?_append_right (Nat.le_refl _)]
              simp
            rw [hsplit] at h38
            rcases Nat.lt_or_ge pt.length g.length with hlt | hge
            · rw [List.getElem?_append_left hlt] at h38
              exact hchars 38 (List.getElem?_mem h38) rfl
            · have heq : pt.length - g.length = 0 := by omega
              rw [List.getElem?_append_right hge, heq] at h38
              simp at h38
          have hr : r = pt.drop (g.length + 1) ++ 38 :: 35 :: (decDigits c ++ 59 :: q) := by
            have h2 : (g ++ 59 :: r).drop (g.length + 1) = r := by
              rw [show g ++ 59 :: r = (g ++ [59]) ++ r by simp]
              exact List.drop_left' (by simp)
            have h1 : (pt ++ 38 :: 35 :: (decDigits c ++ 59 :: q)).drop (g.length + 1) =
                pt.drop (g.length + 1) ++ 38 :: 35 :: (decDigits c ++ 59 :: q) := by
              rw [List.drop_append_eq_append_drop]
              have h0 : g.length + 1 - pt.length = 0 := by omega
              rw [h0, List.drop_zero]
            rw [← h2, ← hsplit, h1]
          have hrlen : r.length ≤ fuel := by
            have hle := congrArg List.length hsplit
            simp only [List.length_append, List.length_cons] at hle hlen'
            omega
          exact List.mem_append_right _ (ih _ q r hr hrlen)
      · rw [scanF_cons_ne fuel _ _ hph]
        exact List.mem_cons_of_mem _ (ih pt q _ rfl hlen')

/-! ## Decode pipeline lemmas -/

theorem encodeStr_append (a b : List Nat) :
    encodeStr (a ++ b) = encodeStr a ++ encodeStr b := by
  simp [encodeStr]

theorem encodeStr_cons (c : Nat) (s : List Nat) :
    encodeStr (c :: s) = encodeChar c ++ encodeStr s := by
  simp [encodeStr]

theorem encodeStr_all_lt128 (s : List Nat) : ∀ a ∈ encodeStr s, a < 128 := by
  intro a ha
  unfold encodeStr at ha
  rcases List.mem_flatten.mp ha with ⟨l, hl, hal⟩
  rcases List.mem_map.mp hl with ⟨ch, _, rfl⟩
  unfold encodeChar at hal
  by_cases hlt : ch < 128
  · rw [if_pos hlt, List.mem_singleton] at hal
    omega
  · rw [if_neg hlt] at hal
    rcases List.mem_append.mp hal with h1 | h2
    · rcases List.mem_append.mp h1 with h3 | h4
      · rcases List.mem_cons.mp h3 with rfl | h5
        · omega
        · rw [List.mem_singleton] at h5
          omega
      · have hd := decDigits_all_digit ch a h4
        simp only [isDigitB, Bool.and_eq_true, decide_eq_true_eq] at hd
        omega
    · rw [List.mem_singleton] at h2
      omega

theorem rstripNul_append_replicate (l : List Nat) (n : Nat) :
    rstripNul (l ++ List.replicate n 0) = rstripNul l := by
  unfold rstripNul
  rw [List.reverse_append, List.reverse_replicate, dropWhile_zero_replicate_append]

theorem rstripNul_concat_ne (u : List Nat) (a : Nat) (ha : a ≠ 0) :
    rstripNul (u ++ [a]) = u ++ [a] := by
  unfold rstripNul
  have hrev : (u ++ [a]).reverse = a :: u.reverse := by simp
  rw [hrev, List.dropWhile_cons_of_neg (by simp [ha])]
  simp

theorem rstripNul_append (u v : List Nat) :
    rstripNul (u ++ v) =
      if (v.reverse.dropWhile (fun c => c == 0)).isEmpty then rstripNul u
      else u ++ rstripNul v := by
  unfold rstripNul
  rw [List.reverse_append, List.dropWhile_append]
  by_cases h : (v.reverse.dropWhile (fun c => c == 0)).isEmpty
  · rw [if_pos h, if_pos h]
  · rw [if_neg h, if_neg h, List.reverse_append, List.reverse_reverse]

theorem mem_rstripNul (l : List Nat) (a : Nat) (h : a ∈ rstripNul l) : a ∈ l := by
  unfold rstripNul at h
  rw [List.mem_reverse] at h
  exact List.mem_reverse.mp ((List.dropWhile_sublist (fun c => c == 0)).subset h)

/-- **C5.**  Encoding a value containing a character above 7-bit ASCII
stores the numeric XML character reference `&#N;` of its codepoint inside
the fixed-width cell, and decoding the stored dataset yields a string in
which the original character reappears (restored by the unescaping pass).
The bound `c < 1114112` states that `c` is a representable Python unicode
codepoint (at most U+10FFFF). -/
theorem nonascii_escape_roundtrip (s : List Nat) (c : Nat) (hcs : c ∈ s) (h128 : 128 ≤ c)
    (hmax : c < 1114112) :
    ∃ w row out,
      create_hdf5_string_dataset (some [.pyStr s]) = .ok ⟨w, some [row]⟩ ∧
      List.IsInfix ([38, 35] ++ decDigits c ++ [59]) row ∧
      read_hdf5_string_dataset ⟨w, some [row]⟩ = [out] ∧ c ∈ out := by
  obtain ⟨s1, s2, rfl⟩ := List.append_of_mem hcs
  have hnc : ¬c < 128 := by omega
  have hE : encodeStr (s1 ++ c :: s2) =
      encodeStr s1 ++ ([38, 35] ++ decDigits c ++ [59]) ++ encodeStr s2 := by
    rw [encodeStr_append, encodeStr_cons, encodeChar, if_neg hnc]
    simp [List.append_assoc]
  have main : ∀ w0,
      List.IsInfix ([38, 35] ++ decDigits c ++ [59])
        (padTo w0 (encodeStr (s1 ++ c :: s2))) ∧
      c ∈ make_utf8 (unescape (asciiIgnore
        (rstripNul (padTo w0 (encodeStr (s1 ++ c :: s2)))))) := by
    intro w0
    have hU : encodeStr (s1 ++ c :: s2) =
        ((encodeStr s1 ++ [38, 35] ++ decDigits c) ++ [59]) ++ encodeStr s2 := by
      rw [hE]
      simp [List.append_assoc]
    constructor
    · rw [padTo]
      generalize w0 - (encodeStr (s1 ++ c :: s2)).length = n
      refine ⟨encodeStr s1, encodeStr s2 ++ List.replicate n 0, ?_⟩
      rw [hE]
      simp [List.append_assoc]
    · have h59 : rstripNul ((encodeStr s1 ++ [38, 35] ++ decDigits c) ++ [59]) =
          (encodeStr s1 ++ [38, 35] ++ decDigits c) ++ [59] :=
        rstripNul_concat_ne _ 59 (by decide)
      have hsplit : ∃ q', rstripNul (padTo w0 (encodeStr (s1 ++ c :: s2))) =
          ((encodeStr s1 ++ [38, 35] ++ decDigits c) ++ [59]) ++ q' := by
        rw [padTo, rstripNul_append_replicate, hU, rstripNul_append]
        by_cases h : ((encodeStr s2).reverse.dropWhile (fun c => c == 0)).isEmpty
        · exact ⟨[], by rw [if_pos h, h59, List.append_nil]⟩
        · exact ⟨rstripNul (encodeStr s2), by rw [if_neg h]⟩
      obtain ⟨q', hq⟩ := hsplit
      have hlt : ∀ a ∈ rstripNul (padTo w0 (encodeStr (s1 ++ c :: s2))), a < 128 := by
        intro a ha
        have h1 := mem_rstripNul _ a ha
        rw [padTo] at h1
        rcases List.mem_append.mp h1 with h2 | h2
        · exact encodeStr_all_lt128 _ a h2
        · have := List.eq_of_mem_replicate h2
          omega
      have hascii := asciiIgnore_ascii _ hlt
      simp only [make_utf8]
      rw [hascii, hq]
      have hshape : ((encodeStr s1 ++ [38, 35] ++ decDigits c) ++ [59]) ++ q' =
          encodeStr s1 ++ 38 :: 35 :: (decDigits c ++ 59 :: q') := by
        simp [List.append_assoc]
      rw [hshape]
      have h38 : (38 : Nat) ∈ encodeStr s1 ++ 38 :: 35 :: (decDigits c ++ 59 :: q') := by
        simp
      rw [unescape, if_pos h38]
      exact scanF_restores c hmax _ (encodeStr s1) q' _ rfl (Nat.le_refl _)
  exact ⟨_, padTo _ (encodeStr (s1 ++ c :: s2)), _,
    create_eq_ok [PyElem.pyStr (s1 ++ c :: s2)] (by simp) (by simp [isNoneOrStr]) _ rfl,
    (main _).1, rfl, (main _).2⟩

/-- Witness for C5: the character U+00E9 (233). -/
theorem nonascii_escape_roundtrip_witness :
    ((233 : Nat) ∈ [233] ∧ 128 ≤ 233 ∧ (233 : Nat) < 1114112) ∧
      ∃ w row out,
        create_hdf5_string_dataset (some [.pyStr [233]]) = .ok ⟨w, some [row]⟩ ∧
        List.IsInfix ([38, 35] ++ decDigits 233 ++ [59]) row ∧
        read_hdf5_string_dataset ⟨w, some [row]⟩ = [out] ∧ 233 ∈ out :=
  ⟨⟨by decide, by decide, by decide⟩,
    nonascii_escape_roundtrip [233] 233 (by decide) (by decide) (by decide)⟩

/-! ## C9: the error message of `run_command_safely` -/

/-- **C9 (code bug).**  When the wrapped external command exits with a
nonzero status, `run_command_safely` raises a message that contains the
exit code and the captured stderr, but *not* the command that was run: the
`%s` on line 96 formats the `Popen` object `p` (whose repr is
`<subprocess.Popen object at 0x...>`), not the command.  Concretely, a
failing `cp` and a failing `mv` with the same outcome produce the very same
message, and the message of the failing `cp` does not contain `"cp"`. -/
theorem run_command_error_message :
    run_command_safely [99, 112] [[47, 97], [47, 98]]
        ⟨1, [78, 111, 32, 115, 117, 99, 104, 32, 102, 105, 108, 101]⟩ =
      run_command_safely [109, 118] [[47, 99]]
        ⟨1, [78, 111, 32, 115, 117, 99, 104, 32, 102, 105, 108, 101]⟩ ∧
    ∃ msg,
      run_command_safely [99, 112] [[47, 97], [47, 98]]
          ⟨1, [78, 111, 32, 115, 117, 99, 104, 32, 102, 105, 108, 101]⟩ = .error msg ∧
      List.IsInfix (intRepr 1) msg ∧
      List.IsInfix [78, 111, 32, 115, 117, 99, 104, 32, 102, 105, 108, 101] msg ∧
      ¬List.IsInfix [99, 112] msg := by
  refine ⟨rfl, ?_⟩
  refine ⟨_, rfl, by decide, by decide, by decide⟩

/-! ## C10: `copytree` drops `allow_existing` on recursion -/

/-- **C10.**  The `allow_existing` flag of `copytree` governs only the
top-level destination directory: with the flag set and the destination
directory already present the top-level `makedirs` succeeds (second
conjunct, for a source with no entries), but the recursive call on any
subdirectory entry passes `allow_existing=False`, so a pre-existing nested
destination directory makes the copy fail with `EEXIST` (first conjunct). -/
theorem copytree_nested_allow_existing (fs : FS) (dst : FPath) (n : FileName)
    (es rest : List (FileName × FSTree))
    (hdst : fsIsDir fs dst = true) (hsub : fsIsDir fs (dst ++ [n]) = true) :
    copytree ((n, .dir es) :: rest) fs dst true = .error .eexist ∧
    copytree [] fs dst true = .ok fs := by
  have hex : fsExists fs dst = true := by
    unfold fsExists
    unfold fsIsDir at hdst
    rw [hdst, Bool.true_or]
  have hexs : fsExists fs (dst ++ [n]) = true := by
    unfold fsExists
    unfold fsIsDir at hsub
    rw [hsub, Bool.true_or]
  have hmk : makedirs fs dst true = .ok fs := by
    unfold makedirs os_makedirs
    rw [if_pos hex]
    simp [hdst]
  have hmk2 : makedirs fs (dst ++ [n]) false = .error .eexist := by
    unfold makedirs os_makedirs
    rw [if_pos hexs]
    simp
  constructor
  · unfold copytree
    simp only [hmk]
    unfold copytreeEntries
    unfold copytree
    simp only [hmk2]
  · unfold copytree
    simp only [hmk]
    unfold copytreeEntries
    rfl

/-- Witness for C10: destination `"d"` and nested `"d/n"` both already
exist as directories. -/
theorem copytree_nested_allow_existing_witness :
    (fsIsDir ⟨[[[100]], [[100], [110]]], []⟩ [[100]] = true ∧
      fsIsDir ⟨[[[100]], [[100], [110]]], []⟩ ([[100]] ++ [[110]]) = true) ∧
    copytree [([110], .dir [])] ⟨[[[100]], [[100], [110]]], []⟩ [[100]] true =
      .error .eexist ∧
    copytree [] ⟨[[[100]], [[100], [110]]], []⟩ [[100]] true =
      .ok ⟨[[[100]], [[100], [110]]], []⟩ :=
  ⟨⟨by decide, by decide⟩,
    copytree_nested_allow_existing ⟨[[[100]], [[100], [110]]], []⟩ [[100]] [110] [] []
      (by decide) (by decide)⟩

/-! ## Lemmas about the JSON merger -/

theorem isObjB_iff (v : JVal) : isObjB v = true ↔ ∃ o, v = .obj o := by
  cases v <;> simp [isObjB]

theorem lookupO_cons (k1 : List Nat) (v : JVal) (t : JObj) (k : List Nat) :
    lookupO k (JObj.cons k1 v t) = if k1 = k then some v else lookupO k t := rfl

theorem lookupO_setKeyO : ∀ (m : JObj) (k : List Nat) (v : JVal) (k1 : List Nat),
    lookupO k1 (setKeyO m k v) = if k1 = k then some v else lookupO k1 m
  | .nil, k, v, k1 => by
    by_cases h : k1 = k
    · subst h
      simp [setKeyO, lookupO]
    · simp only [setKeyO, lookupO]
      rw [if_neg (fun hc : k = k1 => h hc.symm), if_neg h]
  | .cons k2 v2 t, k, v, k1 => by
    by_cases h2 : k2 = k
    · subst h2
      by_cases h : k1 = k2
      · subst h
        simp [setKeyO, lookupO]
      · rw [show setKeyO (JObj.cons k2 v2 t) k2 v = JObj.cons k2 v t by simp [setKeyO]]
        rw [lookupO_cons, lookupO_cons]
        rw [if_neg (fun hc : k2 = k1 => h hc.symm), if_neg h,
          if_neg (fun hc : k2 = k1 => h hc.symm)]
    · simp only [setKeyO, if_neg h2, lookupO_cons]
      by_cases h : k2 = k1
      · subst h
        rw [if_pos rfl, if_pos rfl,
          if_neg (fun hc : k2 = k => h2 hc)]
      · rw [if_neg h, if_neg h, lookupO_setKeyO t k v k1]

theorem mergeEntry_conflict (m : JObj) (k : List Nat) (v old : JVal)
    (hm : lookupO k m = some old) (hne : jeq old v = false)
    (hnob : ¬(isObjB old = true ∧ isObjB v = true)) :
    mergeEntry m k v = .error ⟨k, jtype v, v, old⟩ := by
  unfold mergeEntry
  rw [hm]
  simp only [hne, Bool.false_eq_true, if_false]
  cases v <;> cases old <;> try rfl
  exact absurd ⟨rfl, rfl⟩ hnob

theorem mergeEntry_error_inv (m : JObj) (k : List Nat) (v : JVal) (e : MergeConflict)
    (h : mergeEntry m k v = .error e) :
    e.key = k ∧ e.value = v ∧ lookupO k m = some e.prior ∧ jeq e.prior e.value = false ∧
      ¬(isObjB e.prior = true ∧ isObjB e.value = true) ∧ e.valueType = jtype e.value := by
  unfold mergeEntry at h
  split at h
  · cases h
  · rename_i old hm
    split at h
    · cases h
    · rename_i hj
      split at h
      · cases h
      · rename_i hno
        cases h
        refine ⟨rfl, rfl, hm, Bool.eq_false_iff.mpr hj, ?_, rfl⟩
        rintro ⟨h1, h2⟩
        rcases (isObjB_iff _).mp h1 with ⟨a, ha⟩
        rcases (isObjB_iff _).mp h2 with ⟨b, hb⟩
        exact hno b a hb ha

theorem mergeEntry_ok_lookup (m : JObj) (k : List Nat) (v : JVal) (m2 : JObj) (k1 : List Nat)
    (h : mergeEntry m k v = .ok m2) (hne : k1 ≠ k) :
    lookupO k1 m2 = lookupO k1 m := by
  unfold mergeEntry at h
  split at h
  · cases h
    rw [lookupO_setKeyO, if_neg hne]
  · split at h
    · cases h
      rfl
    · split at h
      · cases h
        rw [lookupO_setKeyO, if_neg hne]
      · cases h

theorem mergeEntries_fresh : ∀ (d : JObj), nodupKeysB d = true →
    ∀ m, (∀ kk, (lookupO kk d).isSome → lookupO kk m = none) →
    ∃ m2, mergeEntries m d = .ok m2 ∧
      ∀ kk, lookupO kk m2 =
        match lookupO kk d with
        | some v => some v
        | none => lookupO kk m
  | .nil, _, m, _ => ⟨m, rfl, fun _ => rfl⟩
  | .cons kd vd t, hnd, m, hfresh => by
    rw [nodupKeysB, Bool.and_eq_true] at hnd
    have hnd' : nodupKeysB t = true := hnd.2
    have hkdt : lookupO kd t = none := by
      have h1 := hnd.1
      cases hx : lookupO kd t with
      | none => rfl
      | some w =>
        rw [hx] at h1
        simp at h1
    have hkdm : lookupO kd m = none := by
      apply hfresh
      simp [lookupO]
    have hstep : mergeEntry m kd vd = .ok (setKeyO m kd vd) := by
      unfold mergeEntry
      rw [hkdm]
    have hfresh2 : ∀ kk, (lookupO kk t).isSome → lookupO kk (setKeyO m kd vd) = none := by
      intro kk hk
      have hkk : kk ≠ kd := by
        intro hc
        subst hc
        rw [hkdt] at hk
        simp at hk
      rw [lookupO_setKeyO, if_neg hkk]
      apply hfresh
      rw [lookupO_cons, if_neg (fun hc : kd = kk => hkk hc.symm)]
      exact hk
    obtain ⟨m2, hm2, hlook⟩ := mergeEntries_fresh t hnd' (setKeyO m kd vd) hfresh2
    refine ⟨m2, ?_, ?_⟩
    · unfold mergeEntries
      rw [hstep]
      exact hm2
    · intro kk
      rw [hlook kk]
      by_cases hkk : kk = kd
      · subst hkk
        simp [hkdt, lookupO_cons, lookupO_setKeyO]
      · rw [lookupO_cons, if_neg (fun hc : kd = kk => hkk hc.symm)]
        cases hx : lookupO kk t with
        | some w => rfl
        | none =>
          show lookupO kk (setKeyO m kd vd) = lookupO kk m
          rw [lookupO_setKeyO, if_neg hkk]

theorem mergeEntries_conflict : ∀ (d : JObj), nodupKeysB d = true →
    ∀ (m : JObj) (k : List Nat) (v1 v2 : JVal),
      lookupO k m = some v1 → lookupO k d = some v2 →
      jeq v1 v2 = false → ¬(isObjB v1 = true ∧ isObjB v2 = true) →
    ∃ e : MergeConflict, mergeEntries m d = .error e ∧
      lookupO e.key m = some e.prior ∧ lookupO e.key d = some e.value ∧
      jeq e.prior e.value = false ∧ ¬(isObjB e.prior = true ∧ isObjB e.value = true) ∧
      e.valueType = jtype e.value
  | .nil, _, m, k, v1, v2 => by
    intro _ hd
    cases hd
  | .cons kd vd t, hnd, m, k, v1, v2 => by
    intro hm hd hne hnob
    rw [nodupKeysB, Bool.and_eq_true] at hnd
    have hnd' : nodupKeysB t = true := hnd.2
    have hkdt : lookupO kd t = none := by
      have h1 := hnd.1
      cases hx : lookupO kd t with
      | none => rfl
      | some w =>
        rw [hx] at h1
        simp at h1
    by_cases hkd : kd = k
    · subst hkd
      have hvd : vd = v2 := by
        rw [lookupO_cons, if_pos rfl] at hd
        exact Option.some.inj hd
      subst hvd
      have herr := mergeEntry_conflict m kd vd v1 hm hne hnob
      refine ⟨⟨kd, jtype vd, vd, v1⟩, ?_, hm, ?_, hne, hnob, rfl⟩
      · unfold mergeEntries
        rw [herr]
      · rw [lookupO_cons, if_pos rfl]
    · cases hres : mergeEntry m kd vd with
      | error e =>
        obtain ⟨hk, hv, hpr, hj, hn, ht⟩ := mergeEntry_error_inv m kd vd e hres
        refine ⟨e, ?_, ?_, ?_, hj, hn, ht⟩
        · unfold mergeEntries
          rw [hres]
        · rw [hk]
          exact hpr
        · rw [hk, hv, lookupO_cons, if_pos rfl]
      | ok m2 =>
        have hm2 : lookupO k m2 = some v1 := by
          rw [mergeEntry_ok_lookup m kd vd m2 k hres (fun hc => hkd hc.symm)]
          exact hm
        have hd2 : lookupO k t = some v2 := by
          rw [lookupO_cons, if_neg hkd] at hd
          exact hd
        obtain ⟨e, he, hem, hed, hj, hn, ht⟩ :=
          mergeEntries_conflict t hnd' m2 k v1 v2 hm2 hd2 hne hnob
        have hekd : e.key ≠ kd := by
          intro hc
          rw [hc, hkdt] at hed
          cases hed
        refine ⟨e, ?_, ?_, ?_, hj, hn, ht⟩
        · unfold mergeEntries
          rw [hres]
          exact he
        · rw [← mergeEntry_ok_lookup m kd vd m2 e.key hres hekd]
          exact hem
        · rw [lookupO_cons, if_neg (fun hc : kd = e.key => hekd hc.symm)]
          exact hed

/-- **C3.**  Merging two inputs in which some top-level key holds two
values that are not structurally equal and not both dicts fails with a
`MergeConflict` (`ValueError`) whose data names a conflicting key, the
conflicting value, that value's type and the prior value; no merged
mapping is returned (the result is the bare error). -/
theorem merge_conflict_error (d1 d2 : JObj)
    (h1 : nodupKeysB d1 = true) (h2 : nodupKeysB d2 = true)
    (k : List Nat) (v1 v2 : JVal)
    (hk1 : lookupO k d1 = some v1) (hk2 : lookupO k d2 = some v2)
    (hne : jeq v1 v2 = false) (hnob : ¬(isObjB v1 = true ∧ isObjB v2 = true)) :
    ∃ e : MergeConflict, merge_jsons_single_level [d1, d2] = .error e ∧
      lookupO e.key d1 = some e.prior ∧ lookupO e.key d2 = some e.value ∧
      jeq e.prior e.value = false ∧ ¬(isObjB e.prior = true ∧ isObjB e.value = true) ∧
      e.valueType = jtype e.value := by
  obtain ⟨m1, hm1, hlook⟩ := mergeEntries_fresh d1 h1 .nil (fun _ _ => rfl)
  have hlook1 : ∀ kk, lookupO kk m1 = lookupO kk d1 := by
    intro kk
    rw [hlook kk]
    cases lookupO kk d1 with
    | some v => rfl
    | none => rfl
  obtain ⟨e, he, hem, hed, hj, hn, ht⟩ :=
    mergeEntries_conflict d2 h2 m1 k v1 v2 (by rw [hlook1]; exact hk1) hk2 hne hnob
  refine ⟨e, ?_, by rw [← hlook1]; exact hem, hed, hj, hn, ht⟩
  unfold merge_jsons_single_level mergeFiles
  rw [hm1]
  unfold mergeFiles
  rw [he]

/-- Witness for C3: the spec's example, `{"a": 5}` against `{"a": 6}`. -/
theorem merge_conflict_error_witness :
    (nodupKeysB (.cons [97] (.num 5) .nil) = true ∧
      nodupKeysB (.cons [97] (.num 6) .nil) = true ∧
      lookupO [97] (.cons [97] (.num 5) .nil) = some (.num 5) ∧
      lookupO [97] (.cons [97] (.num 6) .nil) = some (.num 6) ∧
      jeq (.num 5) (.num 6) = false ∧
      ¬(isObjB (JVal.num 5) = true ∧ isObjB (JVal.num 6) = true)) ∧
    ∃ e : MergeConflict,
      merge_jsons_single_level [.cons [97] (.num 5) .nil, .cons [97] (.num 6) .nil] =
        .error e ∧
      lookupO e.key (.cons [97] (.num 5) .nil) = some e.prior ∧
      lookupO e.key (.cons [97] (.num 6) .nil) = some e.value ∧
      jeq e.prior e.value = false ∧ ¬(isObjB e.prior = true ∧ isObjB e.value = true) ∧
      e.valueType = jtype e.value :=
  ⟨⟨by decide, by decide, by decide, by decide, by decide, by decide⟩,
    merge_conflict_error (.cons [97] (.num 5) .nil) (.cons [97] (.num 6) .nil)
      (by decide) (by decide) [97] (.num 5) (.num 6)
      (by decide) (by decide) (by decide) (by decide)⟩

/-- **C4.**  Per key/value pair, the merge step inserts a key new to the
result; a key whose new value is structurally equal (`==`) to the existing
value is a no-op; and a key where both values are dicts has the new dict
merged into the existing one key-by-key (`dict.update`).  The final
conjunct is the spec's example:
merging `{"a": {"x": 1}}` and `{"a": {"y": 2}}` yields
`{"a": {"x": 1, "y": 2}}`. -/
theorem merge_key_cases :
    (∀ (m : JObj) (k : List Nat) (v : JVal), lookupO k m = none →
      mergeEntry m k v = .ok (setKeyO m k v)) ∧
    (∀ (m : JObj) (k : List Nat) (v old : JVal), lookupO k m = some old →
      jeq old v = true → mergeEntry m k v = .ok m) ∧
    (∀ (m : JObj) (k : List Nat) (a b : JObj), lookupO k m = some (.obj a) →
      jeq (JVal.obj a) (JVal.obj b) = false →
      mergeEntry m k (.obj b) = .ok (setKeyO m k (.obj (updateO a b)))) ∧
    merge_jsons_single_level
      [.cons [97] (.obj (.cons [120] (.num 1) .nil)) .nil,
       .cons [97] (.obj (.cons [121] (.num 2) .nil)) .nil] =
      .ok (.cons [97] (.obj (.cons [120] (.num 1) (.cons [121] (.num 2) .nil))) .nil) := by
  refine ⟨?_, ?_, ?_, rfl⟩
  · intro m k v hnone
    unfold mergeEntry
    rw [hnone]
  · intro m k v old hsome hj
    unfold mergeEntry
    rw [hsome]
    simp only [hj, if_true]
  · intro m k a b hsome hj
    unfold mergeEntry
    rw [hsome]
    simp only [hj, Bool.false_eq_true, if_false]

/-- Witness for C4: all three merge-step cases at concrete inputs. -/
theorem merge_key_cases_witness :
    mergeEntry .nil [97] (.num 5) = .ok (setKeyO .nil [97] (.num 5)) ∧
    mergeEntry (.cons [97] (.num 5) .nil) [97] (.num 5) =
      .ok (.cons [97] (.num 5) .nil) ∧
    mergeEntry (.cons [97] (.obj (.cons [120] (.num 1) .nil)) .nil) [97]
        (.obj (.cons [121] (.num 2) .nil)) =
      .ok (setKeyO (.cons [97] (.obj (.cons [120] (.num 1) .nil)) .nil) [97]
        (.obj (updateO (.cons [120] (.num 1) .nil) (.cons [121] (.num 2) .nil)))) :=
  ⟨merge_key_cases.1 .nil [97] (.num 5) (by decide),
    merge_key_cases.2.1 (.cons [97] (.num 5) .nil) [97] (.num 5) (.num 5)
      (by decide) (by decide),
    merge_key_cases.2.2.1 (.cons [97] (.obj (.cons [120] (.num 1) .nil)) .nil) [97]
      (.cons [120] (.num 1) .nil) (.cons [121] (.num 2) .nil) (by decide) (by decide)⟩

/-- **C2 (counterexample).**  Two inputs that merge without error in both
orders but give different results: `{"a": {"x": 1}}` and `{"a": {"x": 2}}`.
Both orders succeed (`dict.update` silently overwrites the nested scalar
conflict), and the merged value of `"a"` is `{"x": 2}` in one order and
`{"x": 1}` in the other — not even structurally equal.  This falsifies the
claim that the order is immaterial whenever no order raises a conflict. -/
theorem merge_order_dependent_cex :
    merge_jsons_single_level
        [.cons [97] (.obj (.cons [120] (.num 1) .nil)) .nil,
         .cons [97] (.obj (.cons [120] (.num 2) .nil)) .nil] =
      .ok (.cons [97] (.obj (.cons [120] (.num 2) .nil)) .nil) ∧
    merge_jsons_single_level
        [.cons [97] (.obj (.cons [120] (.num 2) .nil)) .nil,
         .cons [97] (.obj (.cons [120] (.num 1) .nil)) .nil] =
      .ok (.cons [97] (.obj (.cons [120] (.num 1) .nil)) .nil) ∧
    jeq (.obj (.cons [120] (.num 2) .nil)) (.obj (.cons [120] (.num 1) .nil)) = false :=
  ⟨rfl, rfl, by decide⟩

/-! ## Equality algebra for `jeq` (Python `==`) -/

theorem keysSubB_spec : ∀ (o b : JObj), keysSubB o b = true →
    ∀ k, (lookupO k o).isSome = true → (lookupO k b).isSome = true
  | .nil, _, _, k, hk => by
    simp [lookupO] at hk
  | .cons k1 v1 t, b, h, k, hk => by
    rw [keysSubB, Bool.and_eq_true] at h
    by_cases hks : k1 = k
    · subst hks
      exact h.1
    · rw [lookupO_cons, if_neg hks] at hk
      exact keysSubB_spec t b h.2 k hk

theorem keysSubB_intro : ∀ (o b : JObj),
    (∀ k, (lookupO k o).isSome = true → (lookupO k b).isSome = true) →
    keysSubB o b = true
  | .nil, _, _ => rfl
  | .cons k1 v1 t, b, h => by
    rw [keysSubB, Bool.and_eq_true]
    refine ⟨h k1 (by rw [lookupO_cons, if_pos rfl]; rfl), ?_⟩
    refine keysSubB_intro t b ?_
    intro k hk
    apply h
    rw [lookupO_cons]
    by_cases hks : k1 = k
    · rw [if_pos hks]
      rfl
    · rw [if_neg hks]
      exact hk

theorem jeqO_lookup : ∀ (b c : JObj), jeqO b c = true →
    ∀ k y, lookupO k b = some y → ∃ z, lookupO k c = some z ∧ jeq y z = true
  | .nil, _, _, _, _, hl => by cases hl
  | .cons k1 y1 t, c, h, k, y, hl => by
    rw [jeqO, Bool.and_eq_true] at h
    by_cases hks : k1 = k
    · subst hks
      rw [lookupO_cons, if_pos rfl] at hl
      cases hl
      cases hz : lookupO k1 c with
      | none =>
        rw [hz] at h
        simp at h
      | some z =>
        rw [hz] at h
        exact ⟨z, rfl, h.1⟩
    · rw [lookupO_cons, if_neg hks] at hl
      exact jeqO_lookup t c h.2 k y hl

theorem jeqO_of_lookup : ∀ (o b : JObj), nodupKeysB o = true →
    (∀ k y, lookupO k o = some y → ∃ x, lookupO k b = some x ∧ jeq y x = true) →
    jeqO o b = true
  | .nil, _, _, _ => rfl
  | .cons k1 y1 t, b, hnd, h => by
    rw [nodupKeysB, Bool.and_eq_true] at hnd
    rw [jeqO, Bool.and_eq_true]
    constructor
    · obtain ⟨x, hx, hyx⟩ := h k1 y1 (by rw [lookupO_cons, if_pos rfl])
      rw [hx]
      exact hyx
    · refine jeqO_of_lookup t b hnd.2 ?_
      intro k y hk
      have hkk : k1 ≠ k := by
        intro hc
        subst hc
        have hnone : lookupO k1 t = none := by
          have h1 := hnd.1
          cases hx : lookupO k1 t with
          | none => rfl
          | some w =>
            rw [hx] at h1
            simp at h1
        rw [hnone] at hk
        cases hk
      apply h
      rw [lookupO_cons, if_neg hkk]
      exact hk

theorem wfO_lookup : ∀ (o : JObj), wfO o = true → ∀ k v, lookupO k o = some v → wfV v = true
  | .nil, _, _, _, h => by cases h
  | .cons k1 v1 t, hwf, k, v, h => by
    rw [wfO, Bool.and_eq_true] at hwf
    by_cases hks : k1 = k
    · subst hks
      rw [lookupO_cons, if_pos rfl] at h
      cases h
      exact hwf.1
    · rw [lookupO_cons, if_neg hks] at h
      exact wfO_lookup t hwf.2 k v h

theorem nodupKeysB_lookup_head : ∀ (t : JObj) (k1 : List Nat) (v1 : JVal),
    nodupKeysB (JObj.cons k1 v1 t) = true → lookupO k1 t = none := by
  intro t k1 v1 h
  rw [nodupKeysB, Bool.and_eq_true] at h
  have h1 := h.1
  cases hx : lookupO k1 t with
  | none => rfl
  | some w =>
    rw [hx] at h1
    simp at h1

theorem sizeOf_lookupO : ∀ (o : JObj) (k : List Nat) (v : JVal),
    lookupO k o = some v → sizeOf v < sizeOf o
  | .nil, _, _, h => by cases h
  | .cons k1 v1 t, k, v, h => by
    rw [lookupO_cons] at h
    by_cases hks : k1 = k
    · rw [if_pos hks] at h
      cases h
      simp
      omega
    · rw [if_neg hks] at h
      have := sizeOf_lookupO t k v h
      simp
      omega

theorem jeqL_refl_core : ∀ (l : JList),
    (∀ x : JVal, sizeOf x < sizeOf l → wfV x = true → jeq x x = true) →
    wfL l = true → jeqL l l = true
  | .nil, _, _ => rfl
  | .cons x t, IH, hw => by
    rw [wfL, Bool.and_eq_true] at hw
    rw [jeqL, Bool.and_eq_true]
    refine ⟨IH x (by simp; omega) hw.1, ?_⟩
    exact jeqL_refl_core t (fun y hy hwy => IH y (by simp at hy ⊢; omega) hwy) hw.2

theorem jeqL_symm_core : ∀ (l m : JList),
    (∀ x : JVal, sizeOf x < sizeOf l → ∀ w, wfV x = true → wfV w = true →
      jeq x w = true → jeq w x = true) →
    wfL l = true → wfL m = true → jeqL l m = true → jeqL m l = true
  | .nil, .nil, _, _, _, _ => rfl
  | .nil, .cons _ _, _, _, _, h => by simp [jeqL] at h
  | .cons _ _, .nil, _, _, _, h => by simp [jeqL] at h
  | .cons x t, .cons y u, IH, hl, hm, h => by
    rw [jeqL, Bool.and_eq_true] at h ⊢
    rw [wfL, Bool.and_eq_true] at hl hm
    refine ⟨IH x (by simp; omega) y hl.1 hm.1 h.1, ?_⟩
    exact jeqL_symm_core t u (fun z hz => IH z (by simp at hz ⊢; omega)) hl.2 hm.2 h.2

theorem jeqL_trans_core : ∀ (l m p : JList),
    (∀ x : JVal, sizeOf x < sizeOf l → ∀ w u, jeq x w = true → jeq w u = true →
      jeq x u = true) →
    jeqL l m = true → jeqL m p = true → jeqL l p = true
  | .nil, .nil, .nil, _, _, _ => rfl
  | .nil, .nil, .cons _ _, _, _, h2 => by simp [jeqL] at h2
  | .nil, .cons _ _, _, _, h1, _ => by simp [jeqL] at h1
  | .cons _ _, .nil, _, _, h1, _ => by simp [jeqL] at h1
  | .cons _ _, .cons _ _, .nil, _, _, h2 => by simp [jeqL] at h2
  | .cons x t, .cons y u, .cons z p, IH, h1, h2 => by
    rw [jeqL, Bool.and_eq_true] at h1 h2 ⊢
    refine ⟨IH x (by simp; omega) y z h1.1 h2.1, ?_⟩
    exact jeqL_trans_core t u p (fun a ha => IH a (by simp at ha ⊢; omega)) h1.2 h2.2

theorem jeq_refl_size : ∀ (n : Nat), ∀ v : JVal, sizeOf v ≤ n → wfV v = true →
    jeq v v = true := by
  intro n
  induction n using Nat.strong_induction_on with
  | _ n IH =>
    intro v hsz hwf
    cases v with
    | null => rfl
    | bool b => simp [jeq]
    | num m => simp [jeq]
    | str s => simp [jeq]
    | arr l =>
      show jeqL l l = true
      refine jeqL_refl_core l ?_ (by rw [wfV] at hwf; exact hwf)
      intro x hx hwx
      have h1 : sizeOf l < sizeOf (JVal.arr l) := by simp
      exact IH (sizeOf x) (by omega) x (Nat.le_refl _) hwx
    | obj o =>
      show (jeqO o o && keysSubB o o) = true
      rw [Bool.and_eq_true]
      rw [wfV, Bool.and_eq_true] at hwf
      have h1 : sizeOf o < sizeOf (JVal.obj o) := by simp
      constructor
      · refine jeqO_of_lookup o o hwf.1 ?_
        intro k y hk
        refine ⟨y, hk, ?_⟩
        have hsy : sizeOf y < sizeOf o := sizeOf_lookupO o k y hk
        exact IH (sizeOf y) (by omega) y (Nat.le_refl _) (wfO_lookup o hwf.2 k y hk)
      · exact keysSubB_intro o o (fun k hk => hk)

theorem jeq_refl (v : JVal) (h : wfV v = true) : jeq v v = true :=
  jeq_refl_size (sizeOf v) v (Nat.le_refl _) h

theorem jeq_symm_size : ∀ (n : Nat), ∀ v w : JVal, sizeOf v ≤ n → wfV v = true →
    wfV w = true → jeq v w = true → jeq w v = true := by
  intro n
  induction n using Nat.strong_induction_on with
  | _ n IH =>
    intro v w hsz hwv hww h
    cases v with
    | null => cases w <;> simp_all [jeq]
    | bool b => cases w <;> simp_all [jeq]
    | num m => cases w <;> simp_all [jeq]
    | str s => cases w <;> simp_all [jeq]
    | arr l =>
      cases w with
      | arr l2 =>
        show jeqL l2 l = true
        rw [wfV] at hwv hww
        have h1 : sizeOf l < sizeOf (JVal.arr l) := by simp
        refine jeqL_symm_core l l2 ?_ hwv hww (by rw [jeq] at h; exact h)
        intro x hx w2 hwx hww2 hxw
        exact IH (sizeOf x) (by omega) x w2 (Nat.le_refl _) hwx hww2 hxw
      | null => simp [jeq] at h
      | bool _ => simp [jeq] at h
      | num _ => simp [jeq] at h
      | str _ => simp [jeq] at h
      | obj _ => simp [jeq] at h
    | obj o =>
      cases w with
      | obj o2 =>
        show (jeqO o2 o && keysSubB o o2) = true
        rw [Bool.and_eq_true]
        rw [wfV, Bool.and_eq_true] at hwv hww
        have hj : (jeqO o o2 && keysSubB o2 o) = true := by rw [jeq] at h; exact h
        rw [Bool.and_eq_true] at hj
        have h1 : sizeOf o < sizeOf (JVal.obj o) := by simp
        constructor
        · refine jeqO_of_lookup o2 o hww.1 ?_
          intro k y hk
          have hko : (lookupO k o).isSome = true :=
            keysSubB_spec o2 o hj.2 k (by rw [hk]; rfl)
          cases hx : lookupO k o with
          | none =>
            rw [hx] at hko
            cases hko
          | some x =>
            obtain ⟨z, hz, hxz⟩ := jeqO_lookup o o2 hj.1 k x hx
            rw [hk] at hz
            cases hz
            refine ⟨x, rfl, ?_⟩
            have hsx : sizeOf x < sizeOf o := sizeOf_lookupO o k x hx
            exact IH (sizeOf x) (by omega) x y (Nat.le_refl _)
              (wfO_lookup o hwv.2 k x hx) (wfO_lookup o2 hww.2 k y hk) hxz
        · refine keysSubB_intro o o2 ?_
          intro k hk
          cases hx : lookupO k o with
          | none =>
            rw [hx] at hk
            cases hk
          | some x =>
            obtain ⟨z, hz, _⟩ := jeqO_lookup o o2 hj.1 k x hx
            rw [hz]
            rfl
      | null => simp [jeq] at h
      | bool _ => simp [jeq] at h
      | num _ => simp [jeq] at h
      | str _ => simp [jeq] at h
      | arr _ => simp [jeq] at h

theorem jeq_symm (v w : JVal) (hv : wfV v = true) (hw : wfV w = true)
    (h : jeq v w = true) : jeq w v = true :=
  jeq_symm_size (sizeOf v) v w (Nat.le_refl _) hv hw h

theorem jeqO_trans_entry : ∀ (o o2 o3 : JObj),
    (∀ x : JVal, sizeOf x < sizeOf o → ∀ w u, jeq x w = true → jeq w u = true →
      jeq x u = true) →
    jeqO o o2 = true → jeqO o2 o3 = true → jeqO o o3 = true
  | .nil, _, _, _, _, _ => rfl
  | .cons k1 x1 t, o2, o3, IH, h12, h23 => by
    rw [jeqO, Bool.and_eq_true] at h12 ⊢
    refine ⟨?_, jeqO_trans_entry t o2 o3 (fun x hx => IH x (by simp at hx ⊢; omega))
      h12.2 h23⟩
    cases hw : lookupO k1 o2 with
    | none =>
      rw [hw] at h12
      simp at h12
    | some w =>
      rw [hw] at h12
      obtain ⟨z, hz, hwz⟩ := jeqO_lookup o2 o3 h23 k1 w hw
      rw [hz]
      exact IH x1 (by simp; omega) w z h12.1 hwz

theorem jeq_trans_size : ∀ (n : Nat), ∀ v w u : JVal, sizeOf v ≤ n →
    jeq v w = true → jeq w u = true → jeq v u = true := by
  intro n
  induction n using Nat.strong_induction_on with
  | _ n IH =>
    intro v w u hsz h1 h2
    cases v with
    | null => cases w <;> cases u <;> simp_all [jeq]
    | bool b => cases w <;> cases u <;> simp_all [jeq]
    | num m => cases w <;> cases u <;> simp_all [jeq]
    | str s => cases w <;> cases u <;> simp_all [jeq]
    | arr l =>
      cases w with
      | arr l2 =>
        cases u with
        | arr l3 =>
          show jeqL l l3 = true
          have hs : sizeOf l < sizeOf (JVal.arr l) := by simp
          refine jeqL_trans_core l l2 l3 ?_ (by rw [jeq] at h1; exact h1)
            (by rw [jeq] at h2; exact h2)
          intro x hx w2 u2 hxw hwu
          exact IH (sizeOf x) (by omega) x w2 u2 (Nat.le_refl _) hxw hwu
        | null => simp [jeq] at h2
        | bool _ => simp [jeq] at h2
        | num _ => simp [jeq] at h2
        | str _ => simp [jeq] at h2
        | obj _ => simp [jeq] at h2
      | null => simp [jeq] at h1
      | bool _ => simp [jeq] at h1
      | num _ => simp [jeq] at h1
      | str _ => simp [jeq] at h1
      | obj _ => simp [jeq] at h1
    | obj o =>
      cases w with
      | obj o2 =>
        cases u with
        | obj o3 =>
          show (jeqO o o3 && keysSubB o3 o) = true
          rw [Bool.and_eq_true]
          have ha : (jeqO o o2 && keysSubB o2 o) = true := by rw [jeq] at h1; exact h1
          have hb : (jeqO o2 o3 && keysSubB o3 o2) = true := by rw [jeq] at h2; exact h2
          rw [Bool.and_eq_true] at ha hb
          have hs : sizeOf o < sizeOf (JVal.obj o) := by simp
          constructor
          · -- every entry of o matches in o3, via o2
            refine jeqO_trans_entry o o2 o3 ?_ ha.1 hb.1
            intro x hx w2 u2 hxw hwu
            exact IH (sizeOf x) (by omega) x w2 u2 (Nat.le_refl _) hxw hwu
          · refine keysSubB_intro o3 o ?_
            intro k hk
            exact keysSubB_spec o2 o ha.2 k (keysSubB_spec o3 o2 hb.2 k hk)
        | null => simp [jeq] at h2
        | bool _ => simp [jeq] at h2
        | num _ => simp [jeq] at h2
        | str _ => simp [jeq] at h2
        | arr _ => simp [jeq] at h2
      | null => simp [jeq] at h1
      | bool _ => simp [jeq] at h1
      | num _ => simp [jeq] at h1
      | str _ => simp [jeq] at h1
      | arr _ => simp [jeq] at h1

theorem jeq_trans (v w u : JVal) (h1 : jeq v w = true) (h2 : jeq w u = true) :
    jeq v u = true :=
  jeq_trans_size (sizeOf v) v w u (Nat.le_refl _) h1 h2

/-! ## Preservation lemmas for `dict.update` -/

theorem nodupKeysB_setKeyO : ∀ (m : JObj) (k : List Nat) (v : JVal),
    nodupKeysB m = true → nodupKeysB (setKeyO m k v) = true
  | .nil, k, v, _ => by
    simp [setKeyO, nodupKeysB, lookupO]
  | .cons k1 v1 t, k, v, h => by
    rw [nodupKeysB, Bool.and_eq_true] at h
    by_cases hk : k1 = k
    · subst hk
      rw [show setKeyO (JObj.cons k1 v1 t) k1 v = JObj.cons k1 v t by simp [setKeyO]]
      rw [nodupKeysB, Bool.and_eq_true]
      exact ⟨h.1, h.2⟩
    · rw [show setKeyO (JObj.cons k1 v1 t) k v = JObj.cons k1 v1 (setKeyO t k v) by
        simp [setKeyO, hk]]
      rw [nodupKeysB, Bool.and_eq_true]
      refine ⟨?_, nodupKeysB_setKeyO t k v h.2⟩
      rw [lookupO_setKeyO, if_neg hk]
      exact h.1

theorem wfO_setKeyO : ∀ (m : JObj) (k : List Nat) (v : JVal),
    wfO m = true → wfV v = true → wfO (setKeyO m k v) = true
  | .nil, k, v, _, hv => by
    simp [setKeyO, wfO, hv]
  | .cons k1 v1 t, k, v, h, hv => by
    rw [wfO, Bool.and_eq_true] at h
    by_cases hk : k1 = k
    · subst hk
      rw [show setKeyO (JObj.cons k1 v1 t) k1 v = JObj.cons k1 v t by simp [setKeyO]]
      rw [wfO, Bool.and_eq_true]
      exact ⟨hv, h.2⟩
    · rw [show setKeyO (JObj.cons k1 v1 t) k v = JObj.cons k1 v1 (setKeyO t k v) by
        simp [setKeyO, hk]]
      rw [wfO, Bool.and_eq_true]
      exact ⟨h.1, wfO_setKeyO t k v h.2 hv⟩

theorem updateO_facts : ∀ (new old : JObj), nodupKeysB new = true → wfO new = true →
    nodupKeysB old = true → wfO old = true →
    nodupKeysB (updateO old new) = true ∧ wfO (updateO old new) = true ∧
    ∀ s, lookupO s (updateO old new) =
      match lookupO s new with
      | some w => some w
      | none => lookupO s old
  | .nil, old, _, _, hnold, hwold => ⟨hnold, hwold, fun _ => rfl⟩
  | .cons k v t, old, hnd, hwf, hnold, hwold => by
    have hk_t : lookupO k t = none := nodupKeysB_lookup_head t k v hnd
    rw [nodupKeysB, Bool.and_eq_true] at hnd
    rw [wfO, Bool.and_eq_true] at hwf
    obtain ⟨h1, h2, h3⟩ := updateO_facts t (setKeyO old k v) hnd.2 hwf.2
      (nodupKeysB_setKeyO old k v hnold) (wfO_setKeyO old k v hwold hwf.1)
    refine ⟨h1, h2, ?_⟩
    intro s
    rw [show updateO old (JObj.cons k v t) = updateO (setKeyO old k v) t from rfl]
    rw [h3 s]
    by_cases hs : k = s
    · subst hs
      rw [hk_t, lookupO_cons, if_pos rfl]
      show lookupO k (setKeyO old k v) = some v
      rw [lookupO_setKeyO, if_pos rfl]
    · rw [lookupO_cons, if_neg hs]
      cases hx : lookupO s t with
      | some w => rfl
      | none =>
        show lookupO s (setKeyO old k v) = lookupO s old
        rw [lookupO_setKeyO, if_neg (fun hc : s = k => hs hc.symm)]

theorem mergeVal_wf (old v : JVal) (hold : wfV old = true) (hv : wfV v = true) :
    wfV (mergeVal old v) = true := by
  unfold mergeVal
  by_cases hj : jeq old v = true
  · rw [if_pos hj]
    exact hold
  · rw [if_neg hj]
    cases v with
    | obj b =>
      cases old with
      | obj a =>
        show wfV (.obj (updateO a b)) = true
        rw [wfV, Bool.and_eq_true] at hold hv ⊢
        obtain ⟨h1, h2, _⟩ := updateO_facts b a hv.1 hv.2 hold.1 hold.2
        exact ⟨h1, h2⟩
      | null => exact hv
      | bool _ => exact hv
      | num _ => exact hv
      | str _ => exact hv
      | arr _ => exact hv
    | null => cases old <;> exact hv
    | bool _ => cases old <;> exact hv
    | num _ => cases old <;> exact hv
    | str _ => cases old <;> exact hv
    | arr _ => cases old <;> exact hv

/-! ## Compatibility lemmas -/

theorem jeq_isObjB (v w : JVal) (h : jeq v w = true) : isObjB v = isObjB w := by
  cases v <;> cases w <;> simp_all [jeq, isObjB]

theorem compat_obj_right (a : JObj) (w : JVal) (h : compatVal (.obj a) w) :
    ∃ c, w = .obj c := by
  rcases h with hj | ⟨a2, b2, _, hwb, _⟩
  · have hk := jeq_isObjB _ _ hj
    cases w with
    | obj c => exact ⟨c, rfl⟩
    | null => simp [isObjB] at hk
    | bool _ => simp [isObjB] at hk
    | num _ => simp [isObjB] at hk
    | str _ => simp [isObjB] at hk
    | arr _ => simp [isObjB] at hk
  · exact ⟨b2, hwb⟩

theorem compat_obj_agree (a c : JObj) (h : compatVal (.obj a) (.obj c)) :
    ∀ s x y, lookupO s a = some x → lookupO s c = some y → jeq x y = true := by
  rcases h with hj | ⟨a2, c2, ha2, hc2, hag⟩
  · intro s x y hx hy
    have hj2 : (jeqO a c && keysSubB c a) = true := by rw [jeq] at hj; exact hj
    rw [Bool.and_eq_true] at hj2
    obtain ⟨z, hz, hxz⟩ := jeqO_lookup a c hj2.1 s x hx
    rw [hy] at hz
    cases hz
    exact hxz
  · cases ha2
    cases hc2
    exact hag

theorem compat_mergeVal (old vnew w : JVal)
    (hwold : wfV old = true) (hwnew : wfV vnew = true)
    (h1 : compatVal old w) (h2 : compatVal vnew w) :
    compatVal (mergeVal old vnew) w := by
  unfold mergeVal
  by_cases hj : jeq old vnew = true
  · rw [if_pos hj]
    exact h1
  · rw [if_neg hj]
    cases vnew with
    | obj b =>
      cases old with
      | obj a =>
        obtain ⟨c, rfl⟩ := compat_obj_right a w h1
        show compatVal (.obj (updateO a b)) (.obj c)
        right
        refine ⟨updateO a b, c, rfl, rfl, ?_⟩
        intro s x y hx hy
        rw [wfV, Bool.and_eq_true] at hwold hwnew
        obtain ⟨_, _, hlook⟩ := updateO_facts b a hwnew.1 hwnew.2 hwold.1 hwold.2
        rw [hlook s] at hx
        cases hbs : lookupO s b with
        | some xb =>
          rw [hbs] at hx
          cases hx
          exact compat_obj_agree b c h2 s x y hbs hy
        | none =>
          rw [hbs] at hx
          have hx2 : lookupO s a = some x := hx
          exact compat_obj_agree a c h1 s x y hx2 hy
      | null => exact h2
      | bool _ => exact h2
      | num _ => exact h2
      | str _ => exact h2
      | arr _ => exact h2
    | null => cases old <;> exact h2
    | bool _ => cases old <;> exact h2
    | num _ => cases old <;> exact h2
    | str _ => cases old <;> exact h2
    | arr _ => cases old <;> exact h2

/-! ## Characterization of the merge under compatibility -/

theorem mergeEntry_insert (m : JObj) (k : List Nat) (v : JVal)
    (h : lookupO k m = none) : mergeEntry m k v = .ok (setKeyO m k v) := by
  unfold mergeEntry
  rw [h]

theorem mergeEntry_pass (m : JObj) (k : List Nat) (v old : JVal)
    (h : lookupO k m = some old) (hj : jeq old v = true) : mergeEntry m k v = .ok m := by
  unfold mergeEntry
  rw [h]
  simp only [hj, if_true]

theorem mergeEntry_update (m : JObj) (k : List Nat) (a b : JObj)
    (h : lookupO k m = some (.obj a)) (hj : jeq (.obj a) (.obj b) = false) :
    mergeEntry m k (.obj b) = .ok (setKeyO m k (.obj (updateO a b))) := by
  unfold mergeEntry
  rw [h]
  simp only [hj, Bool.false_eq_true, if_false]

theorem mergeEntry_compat (m : JObj) (k : List Nat) (v old : JVal)
    (hm : lookupO k m = some old) (hc : compatVal old v) :
    ∃ m1, mergeEntry m k v = .ok m1 ∧
      lookupO k m1 = some (mergeVal old v) ∧
      (∀ k1, k1 ≠ k → lookupO k1 m1 = lookupO k1 m) ∧
      (nodupKeysB m = true → nodupKeysB m1 = true) := by
  by_cases hj : jeq old v = true
  · refine ⟨m, mergeEntry_pass m k v old hm hj, ?_, fun _ _ => rfl, fun h => h⟩
    rw [hm]
    unfold mergeVal
    rw [if_pos hj]
  · rcases hc with hjj | ⟨a, b, hva, hvb, _⟩
    · exact absurd hjj hj
    · subst hva
      subst hvb
      have hjf : jeq (.obj a) (.obj b) = false := Bool.eq_false_iff.mpr hj
      refine ⟨setKeyO m k (.obj (updateO a b)), mergeEntry_update m k a b hm hjf,
        ?_, ?_, fun h => nodupKeysB_setKeyO m k _ h⟩
      · rw [lookupO_setKeyO, if_pos rfl]
        unfold mergeVal
        rw [if_neg hj]
      · intro k1 hk1
        rw [lookupO_setKeyO, if_neg hk1]

theorem mergeEntries_char : ∀ (d : JObj) (m : JObj),
    nodupKeysB d = true →
    (∀ k v, lookupO k d = some v → wfV v = true) →
    nodupKeysB m = true →
    (∀ k v, lookupO k m = some v → wfV v = true) →
    (∀ k old v, lookupO k m = some old → lookupO k d = some v → compatVal old v) →
    ∃ m2, mergeEntries m d = .ok m2 ∧
      nodupKeysB m2 = true ∧
      (∀ k v, lookupO k m2 = some v → wfV v = true) ∧
      ∀ k, lookupO k m2 =
        match lookupO k d with
        | some v =>
          (match lookupO k m with
           | some old => some (mergeVal old v)
           | none => some v)
        | none => lookupO k m
  | .nil, m, _, _, hnm, hwm, _ => ⟨m, rfl, hnm, hwm, fun _ => rfl⟩
  | .cons kd vd t, m, hnd, hwfd, hnm, hwm, hcompat => by
    have hk_t : lookupO kd t = none := nodupKeysB_lookup_head t kd vd hnd
    have hndt : nodupKeysB t = true := by
      rw [nodupKeysB, Bool.and_eq_true] at hnd
      exact hnd.2
    have hwfvd : wfV vd = true := hwfd kd vd (by rw [lookupO_cons, if_pos rfl])
    have hwfdt : ∀ k v, lookupO k t = some v → wfV v = true := by
      intro k v hk
      have hkk : kd ≠ k := by
        intro hc
        subst hc
        rw [hk_t] at hk
        cases hk
      exact hwfd k v (by rw [lookupO_cons, if_neg hkk]; exact hk)
    -- one step
    have hstep : ∃ m1, mergeEntry m kd vd = .ok m1 ∧
        lookupO kd m1 =
          (match lookupO kd m with
           | some old => some (mergeVal old vd)
           | none => some vd) ∧
        (∀ k1, k1 ≠ kd → lookupO k1 m1 = lookupO k1 m) ∧
        nodupKeysB m1 = true := by
      cases hm : lookupO kd m with
      | none =>
        refine ⟨setKeyO m kd vd, mergeEntry_insert m kd vd hm, ?_, ?_, ?_⟩
        · rw [lookupO_setKeyO, if_pos rfl]
        · intro k1 hk1
          rw [lookupO_setKeyO, if_neg hk1]
        · exact nodupKeysB_setKeyO m kd vd hnm
      | some old =>
        obtain ⟨m1, h1, h2, h3, h4⟩ := mergeEntry_compat m kd vd old hm
          (hcompat kd old vd hm (by rw [lookupO_cons, if_pos rfl]))
        exact ⟨m1, h1, h2, h3, h4 hnm⟩
    obtain ⟨m1, hme, hm1kd, hm1other, hnm1⟩ := hstep
    have hwm1 : ∀ k v, lookupO k m1 = some v → wfV v = true := by
      intro k v hk
      by_cases hkk : k = kd
      · subst hkk
        rw [hm1kd] at hk
        cases hmm : lookupO k m with
        | none =>
          rw [hmm] at hk
          cases hk
          exact hwfvd
        | some old =>
          rw [hmm] at hk
          cases hk
          exact mergeVal_wf old vd (hwm k old hmm) hwfvd
      · rw [hm1other k hkk] at hk
        exact hwm k v hk
    have hcompat1 : ∀ k old v, lookupO k m1 = some old → lookupO k t = some v →
        compatVal old v := by
      intro k old v hk hkt
      have hkk : k ≠ kd := by
        intro hc
        subst hc
        rw [hk_t] at hkt
        cases hkt
      rw [hm1other k hkk] at hk
      refine hcompat k old v hk ?_
      rw [lookupO_cons, if_neg (fun hc : kd = k => hkk hc.symm)]
      exact hkt
    obtain ⟨m2, hm2, hnm2, hwm2, hchar⟩ :=
      mergeEntries_char t m1 hndt hwfdt hnm1 hwm1 hcompat1
    refine ⟨m2, ?_, hnm2, hwm2, ?_⟩
    · unfold mergeEntries
      rw [hme]
      exact hm2
    · intro k
      rw [hchar k]
      by_cases hkk : k = kd
      · subst hkk
        rw [hk_t, lookupO_cons, if_pos rfl]
        exact hm1kd
      · rw [lookupO_cons, if_neg (fun hc : kd = k => hkk hc.symm)]
        cases hx : lookupO k t with
        | some v =>
          rw [hm1other k hkk]
        | none =>
          rw [hm1other k hkk]

theorem keyVals_cons_none (k : List Nat) (f : JObj) (fs : List JObj)
    (h : lookupO k f = none) : keyVals k (f :: fs) = keyVals k fs := by
  unfold keyVals
  rw [List.filterMap_cons, h]

theorem keyVals_cons_some (k : List Nat) (f : JObj) (fs : List JObj) (v : JVal)
    (h : lookupO k f = some v) : keyVals k (f :: fs) = v :: keyVals k fs := by
  unfold keyVals
  rw [List.filterMap_cons, h]

theorem mergeFiles_char : ∀ (rest : List JObj) (m : JObj),
    (∀ f ∈ rest, nodupKeysB f = true ∧ ∀ k v, lookupO k f = some v → wfV v = true) →
    nodupKeysB m = true →
    (∀ k v, lookupO k m = some v → wfV v = true) →
    (∀ k old, lookupO k m = some old →
      ∀ f ∈ rest, ∀ v, lookupO k f = some v → compatVal old v) →
    (∀ f ∈ rest, ∀ g ∈ rest, ∀ k v w,
      lookupO k f = some v → lookupO k g = some w → compatVal v w) →
    ∃ m2, mergeFiles m rest = .ok m2 ∧
      ∀ k, lookupO k m2 = foldFrom (lookupO k m) (keyVals k rest)
  | [], m, _, _, _, _, _ => ⟨m, rfl, fun k => by cases lookupO k m <;> rfl⟩
  | f :: fs, m, hwfR, hnm, hwm, hcompatM, hcompatR => by
    have hmemf : f ∈ f :: fs := List.mem_cons_self f fs
    obtain ⟨m1, hme, hnm1, hwm1, char1⟩ :=
      mergeEntries_char f m (hwfR f hmemf).1 (hwfR f hmemf).2 hnm hwm
        (fun k old v hm hf => hcompatM k old hm f hmemf v hf)
    have hcompatM1 : ∀ k old1, lookupO k m1 = some old1 →
        ∀ g ∈ fs, ∀ v, lookupO k g = some v → compatVal old1 v := by
      intro k old1 h1 g hg v hv
      have hgm : g ∈ f :: fs := List.mem_cons_of_mem f hg
      rw [char1 k] at h1
      cases hf : lookupO k f with
      | none =>
        rw [hf] at h1
        exact hcompatM k old1 h1 g hgm v hv
      | some vf =>
        rw [hf] at h1
        cases hm : lookupO k m with
        | none =>
          rw [hm] at h1
          cases h1
          exact hcompatR f hmemf g hgm k old1 v hf hv
        | some old =>
          rw [hm] at h1
          cases h1
          exact compat_mergeVal old vf v (hwm k old hm) ((hwfR f hmemf).2 k vf hf)
            (hcompatM k old hm g hgm v hv) (hcompatR f hmemf g hgm k vf v hf hv)
    obtain ⟨m2, hmfs, char2⟩ := mergeFiles_char fs m1
      (fun g hg => hwfR g (List.mem_cons_of_mem f hg)) hnm1 hwm1 hcompatM1
      (fun g hg h hh => hcompatR g (List.mem_cons_of_mem f hg) h (List.mem_cons_of_mem f hh))
    refine ⟨m2, ?_, ?_⟩
    · unfold mergeFiles
      rw [hme]
      exact hmfs
    · intro k
      rw [char2 k]
      cases hf : lookupO k f with
      | none =>
        have h1 : lookupO k m1 = lookupO k m := by rw [char1 k, hf]
        rw [h1, keyVals_cons_none k f fs hf]
      | some vf =>
        rw [keyVals_cons_some k f fs vf hf]
        cases hm : lookupO k m with
        | none =>
          have h1 : lookupO k m1 = some vf := by rw [char1 k, hf, hm]
          rw [h1]
          rfl
        | some old =>
          have h1 : lookupO k m1 = some (mergeVal old vf) := by rw [char1 k, hf, hm]
          rw [h1]
          rfl

/-! ## The fold of a key's values, and its invariance under permutation -/

theorem revLook_cons (s : List Nat) (v : JVal) (t : List JVal) :
    revLook s (v :: t) =
      match revLook s t with
      | some y => some y
      | none => objLook s v := by
  unfold revLook
  rw [List.reverse_cons, List.filterMap_append]
  cases hA : List.filterMap (objLook s) t.reverse with
  | nil =>
    cases hv : objLook s v with
    | none => simp [List.filterMap, hv]
    | some y => simp [List.filterMap, hv]
  | cons y ys => simp

theorem revLook_none_iff (s : List Nat) (l : List JVal) :
    revLook s l = none ↔ ∀ w ∈ l, objLook s w = none := by
  unfold revLook
  constructor
  · intro h w hw
    rw [List.head?_eq_none_iff, List.filterMap_eq_nil_iff] at h
    exact h w (List.mem_reverse.mpr hw)
  · intro h
    rw [List.head?_eq_none_iff, List.filterMap_eq_nil_iff]
    intro w hw
    exact h w (List.mem_reverse.mp hw)

theorem revLook_mem (s : List Nat) (l : List JVal) (y : JVal) (h : revLook s l = some y) :
    ∃ w ∈ l, objLook s w = some y := by
  unfold revLook at h
  cases hfm : List.filterMap (objLook s) l.reverse with
  | nil =>
    rw [hfm] at h
    cases h
  | cons z zs =>
    rw [hfm] at h
    cases h
    have hz : y ∈ List.filterMap (objLook s) l.reverse := by
      rw [hfm]
      exact List.mem_cons_self y zs
    obtain ⟨w, hw, hwy⟩ := List.mem_filterMap.mp hz
    exact ⟨w, List.mem_reverse.mp hw, hwy⟩

theorem foldJeq : ∀ (t : List JVal) (v : JVal),
    (∀ w ∈ t, jeq v w = true) → t.foldl mergeVal v = v
  | [], _, _ => rfl
  | w :: t, v, h => by
    have hw : jeq v w = true := h w (List.mem_cons_self w t)
    have hmv : mergeVal v w = v := by
      unfold mergeVal
      rw [if_pos hw]
    rw [List.foldl_cons, hmv]
    exact foldJeq t v (fun u hu => h u (List.mem_cons_of_mem w hu))

theorem jeq_obj_lookup_rev (a b : JObj) (h : jeq (.obj a) (.obj b) = true) :
    ∀ s yv, lookupO s b = some yv → ∃ x, lookupO s a = some x ∧ jeq x yv = true := by
  intro s yv hb
  have h2 : (jeqO a b && keysSubB b a) = true := by rw [jeq] at h; exact h
  rw [Bool.and_eq_true] at h2
  have hsome : (lookupO s a).isSome = true :=
    keysSubB_spec b a h2.2 s (by rw [hb]; rfl)
  cases hx : lookupO s a with
  | none =>
    rw [hx] at hsome
    cases hsome
  | some x =>
    obtain ⟨z, hz, hxz⟩ := jeqO_lookup a b h2.1 s x hx
    rw [hb] at hz
    cases hz
    exact ⟨x, rfl, hxz⟩

theorem foldObjs : ∀ (t : List JVal) (a0 : JObj),
    (∀ v ∈ t, ∃ b, v = .obj b ∧ nodupKeysB b = true ∧ wfO b = true) →
    nodupKeysB a0 = true → wfO a0 = true →
    ∃ A, t.foldl mergeVal (.obj a0) = .obj A ∧ nodupKeysB A = true ∧ wfO A = true ∧
      ∀ s, (match revLook s t with
        | some y => ∃ x, lookupO s A = some x ∧ jeq x y = true
        | none => lookupO s A = lookupO s a0)
  | [], a0, _, hnd, hwf => ⟨a0, rfl, hnd, hwf, fun _ => rfl⟩
  | v :: t, a0, hobjs, hnd, hwf => by
    obtain ⟨b, hvb, hndb, hwfb⟩ := hobjs v (List.mem_cons_self v t)
    subst hvb
    have hobjt : ∀ w ∈ t, ∃ c, w = JVal.obj c ∧ nodupKeysB c = true ∧ wfO c = true :=
      fun w hw => hobjs w (List.mem_cons_of_mem _ hw)
    by_cases hj : jeq (.obj a0) (.obj b) = true
    · have hmv : mergeVal (.obj a0) (.obj b) = .obj a0 := by
        unfold mergeVal
        rw [if_pos hj]
      obtain ⟨A, hA, hndA, hwfA, hspec⟩ := foldObjs t a0 hobjt hnd hwf
      refine ⟨A, ?_, hndA, hwfA, ?_⟩
      · rw [List.foldl_cons, hmv]
        exact hA
      · intro s
        rw [revLook_cons]
        cases hrt : revLook s t with
        | some y =>
          have hs := hspec s
          rw [hrt] at hs
          exact hs
        | none =>
          have hs := hspec s
          rw [hrt] at hs
          show (match lookupO s b with
            | some y => ∃ x, lookupO s A = some x ∧ jeq x y = true
            | none => lookupO s A = lookupO s a0)
          cases hv : lookupO s b with
          | none =>
            exact hs
          | some yv =>
            obtain ⟨x, hx, hxy⟩ := jeq_obj_lookup_rev a0 b hj s yv hv
            refine ⟨x, ?_, hxy⟩
            rw [hs]
            exact hx
    · have hmv : mergeVal (.obj a0) (.obj b) = .obj (updateO a0 b) := by
        unfold mergeVal
        rw [if_neg hj]
      obtain ⟨hnd1, hwf1, hlook1⟩ := updateO_facts b a0 hndb hwfb hnd hwf
      obtain ⟨A, hA, hndA, hwfA, hspec⟩ := foldObjs t (updateO a0 b) hobjt hnd1 hwf1
      refine ⟨A, ?_, hndA, hwfA, ?_⟩
      · rw [List.foldl_cons, hmv]
        exact hA
      · intro s
        rw [revLook_cons]
        cases hrt : revLook s t with
        | some y =>
          have hs := hspec s
          rw [hrt] at hs
          exact hs
        | none =>
          have hs := hspec s
          rw [hrt] at hs
          rw [hlook1 s] at hs
          show (match lookupO s b with
            | some y => ∃ x, lookupO s A = some x ∧ jeq x y = true
            | none => lookupO s A = lookupO s a0)
          cases hv : lookupO s b with
          | none =>
            rw [hv] at hs
            exact hs
          | some yv =>
            rw [hv] at hs
            exact ⟨yv, hs, jeq_refl yv (wfO_lookup b hwfb s yv hv)⟩

theorem foldVals_objs (v : JVal) (t : List JVal) (a0 : JObj) (hv : v = .obj a0)
    (hobjs : ∀ w ∈ v :: t, ∃ b, w = .obj b ∧ nodupKeysB b = true ∧ wfO b = true) :
    ∃ A, foldVals (v :: t) = some (.obj A) ∧ nodupKeysB A = true ∧ wfO A = true ∧
      ∀ s, (match revLook s (v :: t) with
        | some y => ∃ x, lookupO s A = some x ∧ jeq x y = true
        | none => lookupO s A = none) := by
  obtain ⟨b0, hvb, hndb, hwfb⟩ := hobjs v (List.mem_cons_self v t)
  have hab : a0 = b0 := by
    rw [hv] at hvb
    cases hvb
    rfl
  subst hab
  subst hv
  obtain ⟨A, hA, hndA, hwfA, hspec⟩ := foldObjs t a0
    (fun w hw => hobjs w (List.mem_cons_of_mem _ hw)) hndb hwfb
  refine ⟨A, ?_, hndA, hwfA, ?_⟩
  · show some (List.foldl mergeVal (JVal.obj a0) t) = some (JVal.obj A)
    rw [hA]
  · intro s
    rw [revLook_cons]
    cases hrt : revLook s t with
    | some y =>
      have hs := hspec s
      rw [hrt] at hs
      exact hs
    | none =>
      have hs := hspec s
      rw [hrt] at hs
      show (match lookupO s a0 with
        | some y => ∃ x, lookupO s A = some x ∧ jeq x y = true
        | none => lookupO s A = none)
      cases hv0 : lookupO s a0 with
      | none =>
        rw [hs]
        exact hv0
      | some y0 =>
        refine ⟨y0, ?_, jeq_refl y0 (wfO_lookup a0 hwfb s y0 hv0)⟩
        rw [hs]
        exact hv0

theorem foldVals_perm (vs vs2 : List JVal)
    (hperm : vs.Perm vs2)
    (hwf : ∀ v ∈ vs, wfV v = true)
    (hcompat : ∀ v ∈ vs, ∀ w ∈ vs, compatVal v w) :
    optJeq (foldVals vs) (foldVals vs2) := by
  cases vs with
  | nil =>
    have h2 : vs2 = [] := hperm.symm.eq_nil
    subst h2
    trivial
  | cons v t =>
    cases vs2 with
    | nil =>
      have h2 := hperm.eq_nil
      simp at h2
    | cons v2 t2 =>
      have hmem : ∀ x, x ∈ v2 :: t2 → x ∈ v :: t := fun x hx => hperm.mem_iff.mpr hx
      by_cases hall : ∀ x ∈ v :: t, ∀ y ∈ v :: t, jeq x y = true
      · have h1 : foldVals (v :: t) = some v := by
          show some (t.foldl mergeVal v) = some v
          rw [foldJeq t v
            (fun w hw => hall v (List.mem_cons_self v t) w (List.mem_cons_of_mem v hw))]
        have h2 : foldVals (v2 :: t2) = some v2 := by
          show some (t2.foldl mergeVal v2) = some v2
          rw [foldJeq t2 v2 (fun w hw => hall v2 (hmem v2 (List.mem_cons_self v2 t2))
            w (hmem w (List.mem_cons_of_mem v2 hw)))]
        rw [h1, h2]
        show jeq v v2 = true
        exact hall v (List.mem_cons_self v t) v2 (hmem v2 (List.mem_cons_self v2 t2))
      · push_neg at hall
        obtain ⟨x, hx, y, hy, hxy⟩ := hall
        have hxa : ∃ a, x = JVal.obj a := by
          rcases hcompat x hx y hy with hj | ⟨a, c, hxa, _, _⟩
          · exact absurd hj hxy
          · exact ⟨a, hxa⟩
        obtain ⟨a, hxa⟩ := hxa
        have hobjs : ∀ w ∈ v :: t,
            ∃ b, w = JVal.obj b ∧ nodupKeysB b = true ∧ wfO b = true := by
          intro w hw
          have hbw : ∃ b, w = JVal.obj b := by
            rcases hcompat x hx w hw with hj | ⟨a2, b2, _, hwb, _⟩
            · have hio := jeq_isObjB x w hj
              rw [hxa] at hio
              exact (isObjB_iff w).mp hio.symm
            · exact ⟨b2, hwb⟩
          obtain ⟨b, hwb⟩ := hbw
          have hwfw : wfV w = true := hwf w hw
          rw [hwb] at hwfw
          have hsplit : (nodupKeysB b && wfO b) = true := hwfw
          rw [Bool.and_eq_true] at hsplit
          exact ⟨b, hwb, hsplit.1, hsplit.2⟩
        have hobjs2 : ∀ w ∈ v2 :: t2,
            ∃ b, w = JVal.obj b ∧ nodupKeysB b = true ∧ wfO b = true :=
          fun w hw => hobjs w (hmem w hw)
        obtain ⟨a0, hva, _, _⟩ := hobjs v (List.mem_cons_self v t)
        obtain ⟨a20, hva2, _, _⟩ := hobjs2 v2 (List.mem_cons_self v2 t2)
        obtain ⟨A, hA, hndA, hwfA, hspecA⟩ := foldVals_objs v t a0 hva hobjs
        obtain ⟨A2, hA2, hndA2, hwfA2, hspecA2⟩ := foldVals_objs v2 t2 a20 hva2 hobjs2
        rw [hA, hA2]
        show jeq (JVal.obj A) (JVal.obj A2) = true
        have hcross : ∀ s y, revLook s (v :: t) = some y →
            ∃ y2, revLook s (v2 :: t2) = some y2 ∧ jeq y y2 = true ∧ wfV y2 = true := by
          intro s y hyr
          obtain ⟨w, hwmem, hwy⟩ := revLook_mem s (v :: t) y hyr
          cases hr2 : revLook s (v2 :: t2) with
          | none =>
            have hnone := (revLook_none_iff s (v2 :: t2)).mp hr2 w (hperm.mem_iff.mp hwmem)
            rw [hwy] at hnone
            cases hnone
          | some y2 =>
            obtain ⟨w2, hw2mem, hw2y⟩ := revLook_mem s (v2 :: t2) y2 hr2
            have hw2mem1 : w2 ∈ v :: t := hmem w2 hw2mem
            obtain ⟨bw, hbw, _, hwfbw⟩ := hobjs w hwmem
            obtain ⟨bw2, hbw2, _, hwfbw2⟩ := hobjs w2 hw2mem1
            rw [hbw] at hwy
            rw [hbw2] at hw2y
            have hl1 : lookupO s bw = some y := hwy
            have hl2 : lookupO s bw2 = some y2 := hw2y
            have hcomp := hcompat w hwmem w2 hw2mem1
            rw [hbw, hbw2] at hcomp
            have hagree := compat_obj_agree bw bw2 hcomp s y y2 hl1 hl2
            exact ⟨y2, rfl, hagree, wfO_lookup bw2 hwfbw2 s y2 hl2⟩
        have hgoal : (jeqO A A2 && keysSubB A2 A) = true := by
          rw [Bool.and_eq_true]
          constructor
          · apply jeqO_of_lookup A A2 hndA
            intro s x1 hsx
            have hsA := hspecA s
            cases hr : revLook s (v :: t) with
            | none =>
              rw [hr] at hsA
              rw [hsA] at hsx
              cases hsx
            | some yv =>
              rw [hr] at hsA
              obtain ⟨x0, hx0, hx0y⟩ := hsA
              rw [hsx] at hx0
              cases hx0
              obtain ⟨y2, hy2, hyy2, hwfy2⟩ := hcross s yv hr
              have hsA2 := hspecA2 s
              rw [hy2] at hsA2
              obtain ⟨x2, hx2, hx2y2⟩ := hsA2
              refine ⟨x2, hx2, jeq_trans _ y2 x2 (jeq_trans _ yv y2 hx0y hyy2)
                (jeq_symm x2 y2 (wfO_lookup A2 hwfA2 s x2 hx2) hwfy2 hx2y2)⟩
          · apply keysSubB_intro A2 A
            intro s hs2
            cases hsx : lookupO s A2 with
            | none =>
              rw [hsx] at hs2
              cases hs2
            | some x2 =>
              have hsA2 := hspecA2 s
              cases hr2 : revLook s (v2 :: t2) with
              | none =>
                rw [hr2] at hsA2
                rw [hsA2] at hsx
                cases hsx
              | some y2 =>
                cases hr : revLook s (v :: t) with
                | none =>
                  obtain ⟨w2, hw2mem, hw2l⟩ := revLook_mem s (v2 :: t2) y2 hr2
                  have hn := (revLook_none_iff s (v :: t)).mp hr w2 (hmem w2 hw2mem)
                  rw [hw2l] at hn
                  cases hn
                | some yv =>
                  have hsA := hspecA s
                  rw [hr] at hsA
                  obtain ⟨x1, hx1, _⟩ := hsA
                  rw [hx1]
                  rfl
        exact hgoal

/-- C2 (corrected): the claim says processing order across files only affects
error messages. That is false in general (see `merge_order_dependent_cex`), but
it holds under the amended compatibility condition: when every pair of values
stored under the same top-level key in any two input files is either
structurally equal (Python `==`) or a pair of dicts agreeing on every shared
nested key, `merge_jsons_single_level` succeeds on every permutation of the
file list and the merged dicts are equal key by key up to Python `==`. -/
theorem merge_order_independence_compat (files files2 : List JObj)
    (hperm : files.Perm files2)
    (hwf : ∀ f ∈ files, nodupKeysB f = true ∧ ∀ k v, lookupO k f = some v → wfV v = true)
    (hcompat : ∀ f ∈ files, ∀ g ∈ files, ∀ k v w,
      lookupO k f = some v → lookupO k g = some w → compatVal v w) :
    ∃ m m2, merge_jsons_single_level files = .ok m ∧
      merge_jsons_single_level files2 = .ok m2 ∧
      ∀ k, optJeq (lookupO k m) (lookupO k m2) := by
  obtain ⟨m, hm, hchar⟩ := mergeFiles_char files .nil hwf rfl
    (fun k v h => by simp [lookupO] at h)
    (fun k old h => by simp [lookupO] at h)
    hcompat
  obtain ⟨m2, hm2, hchar2⟩ := mergeFiles_char files2 .nil
    (fun f hf => hwf f (hperm.mem_iff.mpr hf)) rfl
    (fun k v h => by simp [lookupO] at h)
    (fun k old h => by simp [lookupO] at h)
    (fun f hf g hg k v w h1 h2 =>
      hcompat f (hperm.mem_iff.mpr hf) g (hperm.mem_iff.mpr hg) k v w h1 h2)
  refine ⟨m, m2, hm, hm2, ?_⟩
  intro k
  rw [hchar k, hchar2 k]
  show optJeq (foldVals (keyVals k files)) (foldVals (keyVals k files2))
  apply foldVals_perm
  · exact hperm.filterMap (lookupO k)
  · intro v hv
    obtain ⟨f, hf, hfv⟩ := List.mem_filterMap.mp hv
    exact (hwf f hf).2 k v hfv
  · intro v hv w hw
    obtain ⟨f, hf, hfv⟩ := List.mem_filterMap.mp hv
    obtain ⟨g, hg, hgw⟩ := List.mem_filterMap.mp hw
    exact hcompat f hf g hg k v w hfv hgw

theorem merge_order_independence_compat_witness :
    ∃ m m2,
      merge_jsons_single_level
        [JObj.cons [97] .null .nil, JObj.cons [98] (.num 2) .nil] = .ok m ∧
      merge_jsons_single_level
        [JObj.cons [98] (.num 2) .nil, JObj.cons [97] .null .nil] = .ok m2 ∧
      ∀ k, optJeq (lookupO k m) (lookupO k m2) := by
  apply merge_order_independence_compat
  · exact List.Perm.swap (JObj.cons [98] (.num 2) .nil) (JObj.cons [97] .null .nil) []
  · intro f hf
    rcases List.mem_cons.mp hf with rfl | hf2
    · refine ⟨rfl, ?_⟩
      intro k v h
      by_cases hk : [97] = k
      · rw [lookupO_cons, if_pos hk] at h
        cases h
        rfl
      · rw [lookupO_cons, if_neg hk] at h
        simp [lookupO] at h
    · rcases List.mem_cons.mp hf2 with rfl | hf3
      · refine ⟨rfl, ?_⟩
        intro k v h
        by_cases hk : [98] = k
        · rw [lookupO_cons, if_pos hk] at h
          cases h
          rfl
        · rw [lookupO_cons, if_neg hk] at h
          simp [lookupO] at h
      · simp at hf3
  · intro f hf g hg k v w h1 h2
    rcases List.mem_cons.mp hf with rfl | hf2
    · by_cases hk : [97] = k
      · subst hk
        rw [lookupO_cons, if_pos rfl] at h1
        cases h1
        rcases List.mem_cons.mp hg with rfl | hg2
        · rw [lookupO_cons, if_pos rfl] at h2
          cases h2
          exact Or.inl rfl
        · rcases List.mem_cons.mp hg2 with rfl | hg3
          · rw [lookupO_cons, if_neg (by decide)] at h2
            simp [lookupO] at h2
          · simp at hg3
      · rw [lookupO_cons, if_neg hk] at h1
        simp [lookupO] at h1
    · rcases List.mem_cons.mp hf2 with rfl | hf3
      · by_cases hk : [98] = k
        · subst hk
          rw [lookupO_cons, if_pos rfl] at h1
          cases h1
          rcases List.mem_cons.mp hg with rfl | hg2
          · rw [lookupO_cons, if_neg (by decide)] at h2
            simp [lookupO] at h2
          · rcases List.mem_cons.mp hg2 with rfl | hg3
            · rw [lookupO_cons, if_pos rfl] at h2
              cases h2
              exact Or.inl rfl
            · simp at hg3
        · rw [lookupO_cons, if_neg hk] at h1
          simp [lookupO] at h1
      · simp at hf3
